import Mathlib

/-!
Verification of the cut-and-choose Publicly Verifiable Encryption (PVE)
engine of this repository (vendor/cb-mpc): the single-value engine
`ec_pve_t` (encrypt / verify / decrypt / restore_from_decrypted), the batch
engine `ec_pve_batch_t`, the base KEM→AEAD hybrid primitive
(`kem_aead_ciphertext_t::seal`, `kem_policy_rsa_oaep_t::encapsulate`,
`kem_policy_ecdh_p256_t::encapsulate`, `pve_base_pke_impl_t::encrypt`) and
the serialization (`convert`) of the instance types.

Modelling conventions (shallow embedding):
* Byte strings are `List Nat` (`Buf`); fixed-width machine data carries its
  width as an invariant (`to16` models `buf128_t`, which is 16 bytes by
  type).
* The elliptic curve is modelled by its (prime) group order `q`: since the
  curve group is cyclic of order `q` and generated by `G`, an on-curve
  point is identified by its discrete logarithm in `[0, q)`
  (`Point.onCurve e`), and an invalid point encoding by `Point.offCurve`.
  `x·G` is `smulG q x`, point subtraction is subtraction of exponents
  mod `q`, and `curve.check` is `curveCheckB`.
* `drbg_aes_ctr_t` (AES-CTR DRBG) is modelled as a deterministic function
  of its seed and of the index of the call in the call sequence
  (`drbgBytes seed ctr k`, `drbgBn seed ctr q`): what the proofs use is
  exactly what the code relies on — the same seed and call sequence
  reproduce the same outputs, different calls are independent inputs.
  `mix` is the concrete stand-in for the underlying PRF.
* `gen_random` (fresh OS randomness) is an explicit entropy parameter
  `ent : Nat → Buf`, one fresh draw per index.
* The base PKE (`pve_base_pke_i`: KEM→AEAD under a label, see C5 for the
  byte-level model) is modelled symbolically at the PVE layer: a ciphertext
  `BaseCt` records the encapsulation key, the label (associated data), the
  plaintext and the randomness, and `basePkeDecrypt` succeeds exactly when
  the decapsulation key matches the encapsulation key and the label
  matches the associated data — the guarantee AES-GCM authentication and
  KEM correctness give the code (a mismatched key or AAD makes
  `aes_gcm_t::decrypt` fail).
* `error_t` returns are `Except Err`; `SUCCESS` is `.ok`.
* `kappa = SEC_P_COM = 128` and `SEC_P_STAT = 64` bits (8 bytes), the
  production constants of cb-mpc (the spec: one bit of soundness per row,
  production default 128).
-/

namespace PVE

/-- A byte string; entries are byte values. -/
abbrev Buf := List Nat

/-- Concrete stand-in for the PRF underlying the DRBG and the hashes of the
model: a fold-based mixing function. The development never relies on any
cryptographic property of it, only on it being a deterministic function of
its input. -/
def mix (l : List Nat) : Nat :=
  l.foldl (fun a b => (a * 31 + b % 256 + 1) % 1000003) 17

/-- Fuel-driven worker for `natToBytesLE` (structural recursion on the
fuel keeps it kernel-reducible; the fuel never runs out when it starts at
the encoded number itself). -/
def natToBytesLEGo : Nat → Nat → Buf
  | _, 0 => []
  | 0, _ + 1 => []
  | fuel + 1, n + 1 => ((n + 1) % 256) :: natToBytesLEGo fuel ((n + 1) / 256)

/-- Minimal little-endian base-256 encoding of a natural number; models
`bn_t::to_bin` (an invertible, length-minimal byte encoding of a bignum). -/
def natToBytesLE (x : Nat) : Buf := natToBytesLEGo x x

/-- Inverse of `natToBytesLE`; models `bn_t::from_bin`. -/
def bytesToNatLE : Buf → Nat
  | [] => 0
  | b :: rest => b + 256 * bytesToNatLE rest

/-- Fixed-width (`w` bytes) little-endian encoding: the minimal encoding
padded with zero bytes. Models writing a bignum into a fixed `w`-byte slot
(`bn_t::to_bin(size)` / one element of `bn_t::vector_to_bin`). -/
def toFixedLE (w x : Nat) : Buf :=
  (natToBytesLE x ++ List.replicate w 0).take w

/-- Normalize a buffer to exactly 16 bytes; models the `buf128_t` type,
which holds exactly 128 bits however it is produced. -/
def to16 (b : Buf) : Buf := (b ++ List.replicate 16 0).take 16

/-- One output of the AES-CTR DRBG (`drbg_aes_ctr_t::gen`) as a
deterministic function of the seed, the call index `ctr` in the call
sequence made on that DRBG instance, and the requested byte count. -/
def drbgBytes (seed : Buf) (ctr k : Nat) : Buf :=
  (List.range k).map fun j => mix (j :: ctr :: seed) % 256

/-- One output of `drbg_aes_ctr_t::gen_bn(mod)`: a scalar below the
modulus, deterministic in the seed and the call index. -/
def drbgBn (seed : Buf) (ctr q : Nat) : Nat := mix (ctr :: seed) % q

/-- A point of the elliptic curve of prime order `q`: an on-curve point is
a multiple of the generator `G` and is identified by its discrete
logarithm; `offCurve` stands for an encoding that fails `curve.check`. -/
inductive Point where
  | onCurve (e : Nat)
  | offCurve (j : Nat)
deriving DecidableEq, Repr

instance : Inhabited Point := ⟨Point.onCurve 0⟩

/-- Scalar multiplication of the generator: `x·G`. -/
def smulG (q x : Nat) : Point := Point.onCurve (x % q)

/-- Point subtraction (only ever applied to on-curve points by the code). -/
def pointSub (q : Nat) : Point → Point → Point
  | Point.onCurve a, Point.onCurve c => Point.onCurve ((a % q + (q - c % q)) % q)
  | _, _ => Point.offCurve 0

/-- The on-curve test `ecurve_t::check`. -/
def curveCheckB : Point → Bool
  | Point.onCurve _ => true
  | Point.offCurve _ => false

/-- A ciphertext of the base PKE (KEM→AEAD hybrid), symbolically: it
determines the encapsulation key it was made for, the label bound as
associated data, the plaintext, and the randomness it was derived from
(two different randomness values give two different ciphertexts, and the
same inputs give the identical ciphertext — determinism, C5, proved on the
byte-level model below). -/
structure BaseCt where
  ek : Nat
  label : Buf
  plain : Buf
  rho : Buf
deriving DecidableEq, Repr

instance : Inhabited BaseCt := ⟨⟨0, [], [], []⟩⟩

/-- `pve_base_pke_i::encrypt` (deterministic given the randomness `rho`). -/
def basePkeEncrypt (ek : Nat) (label plain rho : Buf) : BaseCt :=
  ⟨ek, label, plain, rho⟩

/-- The symbolic `pve_base_pke_i::decrypt`: opening succeeds exactly when
the private key corresponds to the encapsulation key of the ciphertext and
the associated-data label matches (otherwise AES-GCM authentication
fails and the code returns an error). A key pair is honest when both
handles carry the same key identifier. -/
def basePkeDecrypt (dk : Nat) (label : Buf) (ct : BaseCt) : Option Buf :=
  if ct.ek = dk ∧ ct.label = label then some ct.plain else none

/-- Statistical security parameter `SEC_P_COM`: the number of
cut-and-choose rows. -/
def kappa : Nat := 128

/-- The byte count of `SEC_P_STAT = 64` bits (`bits_to_bytes(SEC_P_STAT)`). -/
def statBytes : Nat := 8

/-- `rho_size`: bytes of encryption randomness derived per base-PKE call. -/
def rhoSize : Nat := 32

/-- Length-prefixed buffer, used inside hash inputs so that field
boundaries are unambiguous. -/
def encBufH (b : Buf) : Buf := b.length :: b

/-- Encoding of a point for hashing (models the serialized octet string of
an `ecc_point_t` inside `sha256_t::hash` and `ro::hash_string`). -/
def encPointH : Point → Buf
  | Point.onCurve e => 0 :: natToBytesLE e
  | Point.offCurve j => 1 :: natToBytesLE j

/-- Encoding of a vector of points for hashing (one digest per point, so
hash inputs stay flat). -/
def encPointsH (l : List Point) : Buf := l.map fun P => mix (encPointH P)

/-- Encoding of a base ciphertext for hashing (a per-ciphertext digest, so
hash inputs stay flat). -/
def encCtH (ct : BaseCt) : Buf :=
  [mix (natToBytesLE ct.ek ++ encBufH ct.label ++ encBufH ct.plain ++ encBufH ct.rho)]

/-- Model of `sha256_t::hash` composed with hex rendering: a fixed-length
digest of the input, as a deterministic function. -/
def sha256Model (inp : Buf) : Buf := drbgBytes inp 0 32

/-- `genPVELabelWithPoint(label, Q)`: the per-instance inner label
`label + "-" + hex(sha256(Q))` binding every row ciphertext to the
caller-supplied label and the commitment; 45 is the byte of the dash. -/
def pveLabelWithPoint (label : Buf) (qenc : Buf) : Buf :=
  label ++ 45 :: sha256Model qenc

/-- Model of the Fiat–Shamir challenge `ro::hash_string(...).bitlen(kappa)`:
`kappa` bits, each a deterministic function of the full hash input. -/
def hashBits (inp : Buf) : List Bool :=
  (List.range kappa).map fun i => decide (mix [i, mix inp] % 2 = 1)

/-- The hash input of the single-value engine:
`ro::hash_string(Q, label, c0, c1, X0, X1)` with the row arrays in
argument order. -/
def challengeInputS (Qp : Point) (label : Buf) (c0s c1s : List BaseCt)
    (X0s X1s : List Point) : Buf :=
  [mix (encBufH (encPointH Qp) ++ encBufH label),
   mix (c0s.flatMap encCtH),
   mix (c1s.flatMap encCtH),
   mix (encPointsH X0s),
   mix (encPointsH X1s)]

/-- The error taxonomy of the engine (`error_t` values with their spec
names): `badArg` is `E_BADARG`, the others are the `E_CRYPTO` returns of
the distinct failure sites. -/
inductive Err where
  | badPoint
  | qMismatch
  | labelMismatch
  | proofInvalid
  | sizeInvalid
  | decryptFailed
  | reconstructFailed
  | badArg
deriving DecidableEq, Repr

/-- The transient per-row data of `ec_pve_t::encrypt` (everything computed
for row `i` before the challenge selects which half survives). Field order
follows the code: seeds `r0, r1`, `x0 = drbg(r0).gen_bn(q)`,
`rho0 = drbg(r0).gen(rho_size)`, `x1 = x - x0 mod q`,
`rho1 = drbg(r1).gen(rho_size)`, ciphertexts of both halves under the
inner label, and the points `X0 = x0·G`, `X1 = Q - X0`. -/
structure EncRowS where
  r0 : Buf
  r1 : Buf
  x0 : Nat
  rho0 : Buf
  x1 : Nat
  rho1 : Buf
  c0 : BaseCt
  c1 : BaseCt
  X0 : Point
  X1 : Point
deriving Repr

instance : Inhabited EncRowS :=
  ⟨{ r0 := [], r1 := [], x0 := 0, rho0 := [], x1 := 0, rho1 := [],
     c0 := default, c1 := default, X0 := default, X1 := default }⟩

/-- Row `i` of `ec_pve_t::encrypt`'s loop. `ent` supplies the two fresh
16-byte seeds (`gen_random(r0[i])`, `gen_random(r1[i])`). -/
def encRowS (q ek : Nat) (inner : Buf) (Qp : Point) (bnx : Nat) (ent : Nat → Buf)
    (i : Nat) : EncRowS :=
  let r0 := to16 (ent (2 * i))
  let r1 := to16 (ent (2 * i + 1))
  let x0 := drbgBn r0 0 q
  let rho0 := drbgBytes r0 1 rhoSize
  let x1 := (bnx + (q - x0)) % q
  let rho1 := drbgBytes r1 0 rhoSize
  { r0 := r0, r1 := r1, x0 := x0, rho0 := rho0, x1 := x1, rho1 := rho1,
    c0 := basePkeEncrypt ek inner (natToBytesLE x0) rho0,
    c1 := basePkeEncrypt ek inner (natToBytesLE x1) rho1,
    X0 := smulG q x0,
    X1 := pointSub q Qp (smulG q x0) }

/-- The state of an `ec_pve_t` after `encrypt` (the persisted fields:
label `L`, commitment `Q`, challenge bits `b`, and per row the kept scalar
`x_rows[i]`, seed `r[i]` and ciphertext `c[i]`). -/
structure SingleInst where
  L : Buf
  Q : Point
  b : List Bool
  xRows : List Nat
  r : List Buf
  c : List BaseCt
deriving DecidableEq, Repr

/-- `ec_pve_t::encrypt(ek, label, curve, x)`. -/
def encryptS (q ek : Nat) (label : Buf) (x : Nat) (ent : Nat → Buf) : SingleInst :=
  let bnx := x % q
  let Qp := smulG q bnx
  let inner := pveLabelWithPoint label (encPointH Qp)
  let rows := (List.range kappa).map (encRowS q ek inner Qp bnx ent)
  let b := hashBits (challengeInputS Qp label (rows.map (·.c0)) (rows.map (·.c1))
    (rows.map (·.X0)) (rows.map (·.X1)))
  { L := label
    Q := Qp
    b := b
    xRows := (List.range kappa).map fun i =>
      if b.getD i false then (rows.getD i default).x1 else 0
    r := (List.range kappa).map fun i =>
      if b.getD i false then (rows.getD i default).r1 else (rows.getD i default).r0
    c := (List.range kappa).map fun i =>
      if b.getD i false then (rows.getD i default).c0 else (rows.getD i default).c1 }

/-- The recomputed row quadruple `(c0, c1, X0, X1)` of `ec_pve_t::verify`
for one row: re-derive the recoverable half from the retained seed (or the
retained scalar), re-encrypt it, pair it with the stored ciphertext, and
swap the roles when the challenge bit selected the other half. -/
def verRowS (q ek : Nat) (inner : Buf) (Qin : Point) (bi : Bool) (xRow : Nat)
    (ri : Buf) (ci : BaseCt) : BaseCt × BaseCt × Point × Point :=
  let xi := if bi then xRow else drbgBn ri 0 q
  let rho := if bi then drbgBytes ri 0 rhoSize else drbgBytes ri 1 rhoSize
  let X0 := smulG q xi
  let X1 := pointSub q Qin X0
  let c0 := basePkeEncrypt ek inner (natToBytesLE xi) rho
  let c1 := ci
  if bi then (c1, c0, X1, X0) else (c0, c1, X0, X1)

/-- The challenge recomputation of `ec_pve_t::verify` on an instance, with
the verifier-supplied point and label. -/
def recomputeBS (q : Nat) (inst : SingleInst) (ek : Nat) (Qin : Point) (label : Buf) :
    List Bool :=
  let inner := pveLabelWithPoint label (encPointH Qin)
  let rec' := (List.range kappa).map fun i =>
    verRowS q ek inner Qin (inst.b.getD i false) (inst.xRows.getD i 0)
      (inst.r.getD i []) (inst.c.getD i default)
  hashBits (challengeInputS Qin label (rec'.map (·.1)) (rec'.map (·.2.1))
    (rec'.map (·.2.2.1)) (rec'.map (·.2.2.2)))

/-- `ec_pve_t::verify(ek, Q, label)`. -/
def verifyS (q : Nat) (inst : SingleInst) (ek : Nat) (Qin : Point) (label : Buf) :
    Except Err Unit :=
  if ¬ curveCheckB Qin then Except.error Err.badPoint
  else if Qin ≠ inst.Q then Except.error Err.qMismatch
  else if label ≠ inst.L then Except.error Err.labelMismatch
  else if recomputeBS q inst ek Qin label = inst.b then Except.ok ()
  else Except.error Err.proofInvalid

/-- `ec_pve_t::restore_from_decrypted(row_index, decrypted_x_buf, curve, x)`:
combine the decrypted half with the retained (or seed-re-derived) half by
modular addition and accept only a candidate whose commitment matches. -/
def restoreS (q : Nat) (inst : SingleInst) (i : Nat) (xbuf : Buf) : Option Nat :=
  let bi := inst.b.getD i false
  let xBar := bytesToNatLE xbuf
  let xBi := if bi then inst.xRows.getD i 0 else drbgBn (inst.r.getD i []) 0 q
  let xv := (xBar + xBi) % q
  if smulG q xv = inst.Q then some xv else none

/-- The row loop of `ec_pve_t::decrypt`: open the retained ciphertext of
each row in order (a failed opening returns that error at once), try to
reconstruct, return the first row that reconstructs, and fail with the
reconstruction error once every row has been tried. -/
def decryptLoopS (q dk : Nat) (inner : Buf) (inst : SingleInst) : List Nat → Except Err Nat
  | [] => Except.error Err.reconstructFailed
  | i :: rest =>
    match basePkeDecrypt dk inner (inst.c.getD i default) with
    | none => Except.error Err.decryptFailed
    | some xbuf =>
      match restoreS q inst i xbuf with
      | some xv => Except.ok xv
      | none => decryptLoopS q dk inner inst rest

/-- `ec_pve_t::decrypt(dk, ek, label, curve, x, skip_verify)`. -/
def decryptS (q dk ek : Nat) (label : Buf) (inst : SingleInst) (skipVerify : Bool) :
    Except Err Nat :=
  match (if skipVerify then Except.ok () else verifyS q inst ek inst.Q label) with
  | Except.error e => Except.error e
  | Except.ok () =>
    let inner := pveLabelWithPoint label (encPointH inst.Q)
    decryptLoopS q dk inner inst (List.range kappa)

/-- `ecurve_t::size()`: the byte length of the curve order. -/
def csize (q : Nat) : Nat := (natToBytesLE q).length

/-- `bn_t::vector_to_bin(xs, w)`: each scalar in a fixed `w`-byte slot. -/
def vectorToBin (w : Nat) (xs : List Nat) : Buf := xs.flatMap (toFixedLE w)

/-- `bn_t::vector_from_bin(src, n, w, q)`: split `src` into `n` chunks of
`w` bytes, each decoded and reduced mod `q`. -/
def vectorFromBin (q w : Nat) : Nat → Buf → List Nat
  | 0, _ => []
  | n + 1, src => (bytesToNatLE (src.take w) % q) :: vectorFromBin q w n (src.drop w)

/-- A persisted row of `ec_pve_batch_t` (`row_t`): blob of kept scalars
`x_bin`, retained seed bytes `r`, retained ciphertext `c`. -/
structure BatchRow where
  xBin : Buf
  r : Buf
  c : BaseCt
deriving DecidableEq, Repr

instance : Inhabited BatchRow := ⟨⟨[], [], default⟩⟩

/-- The transient per-row data of `ec_pve_batch_t::encrypt`: three fresh
16-byte seeds (`r01` drives the hidden scalar vector, `r02` and `r1` the
two encryption-randomness derivations), the derived vectors and both
ciphertexts (`c0` encrypts the seed `r01` itself, `c1` encrypts the
fixed-width blob of `x1`). -/
structure EncRowB where
  r01 : Buf
  r02 : Buf
  r1 : Buf
  x0 : List Nat
  rho0 : Buf
  rho1 : Buf
  x1 : List Nat
  x1bin : Buf
  c0 : BaseCt
  c1 : BaseCt
  X0 : List Point
  X1 : List Point
deriving Repr

instance : Inhabited EncRowB :=
  ⟨{ r01 := [], r02 := [], r1 := [], x0 := [], rho0 := [], rho1 := [], x1 := [],
     x1bin := [], c0 := default, c1 := default, X0 := [], X1 := [] }⟩

/-- Row `i` of `ec_pve_batch_t::encrypt`'s loop (`xs` already reduced
mod `q`, `Qs` the commitment vector). -/
def encRowB (q ek n : Nat) (inner : Buf) (Qs : List Point) (xs : List Nat)
    (ent : Nat → Buf) (i : Nat) : EncRowB :=
  let r01 := to16 (ent (3 * i))
  let r02 := to16 (ent (3 * i + 1))
  let r1 := to16 (ent (3 * i + 2))
  let x0src := drbgBytes r01 0 (n * (csize q + statBytes))
  let rho0 := drbgBytes r02 0 rhoSize
  let rho1 := drbgBytes r1 0 rhoSize
  let x0 := vectorFromBin q (csize q + statBytes) n x0src
  let x1 := List.zipWith (fun xj x0j => (xj + (q - x0j)) % q) xs x0
  let x1bin := vectorToBin (csize q) x1
  { r01 := r01, r02 := r02, r1 := r1, x0 := x0, rho0 := rho0, rho1 := rho1,
    x1 := x1, x1bin := x1bin,
    c0 := basePkeEncrypt ek inner r01 rho0,
    c1 := basePkeEncrypt ek inner x1bin rho1,
    X0 := x0.map (smulG q),
    X1 := List.zipWith (pointSub q) Qs (x0.map (smulG q)) }

/-- The hash input of the batch engine: `ro::hash_string(Q, label, c0, c1,
X0, X1)` with the commitment vector and per-row point vectors. -/
def challengeInputB (Qs : List Point) (label : Buf) (c0s c1s : List BaseCt)
    (X0s X1s : List (List Point)) : Buf :=
  [mix (encBufH (encPointsH Qs) ++ encBufH label),
   mix (c0s.flatMap encCtH),
   mix (c1s.flatMap encCtH),
   mix (X0s.map fun l => mix (encPointsH l)),
   mix (X1s.map fun l => mix (encPointsH l))]

/-- The state of an `ec_pve_batch_t` after `encrypt`: batch count `n`,
label, commitment vector, challenge bits, `kappa` rows. -/
structure BatchInst where
  n : Nat
  L : Buf
  Q : List Point
  b : List Bool
  rows : List BatchRow
deriving DecidableEq, Repr

/-- `ec_pve_batch_t::encrypt(ek, label, curve, x)`; the engine was
constructed with `batch_count = xs.length` (the code asserts
`x.size() == n`). -/
def encryptB (q ek : Nat) (label : Buf) (xsIn : List Nat) (ent : Nat → Buf) : BatchInst :=
  let n := xsIn.length
  let xs := xsIn.map (· % q)
  let Qs := xs.map (smulG q)
  let inner := pveLabelWithPoint label (encPointsH Qs)
  let rows := (List.range kappa).map (encRowB q ek n inner Qs xs ent)
  let b := hashBits (challengeInputB Qs label (rows.map (·.c0)) (rows.map (·.c1))
    (rows.map (·.X0)) (rows.map (·.X1)))
  { n := n
    L := label
    Q := Qs
    b := b
    rows := (List.range kappa).map fun i =>
      let row := rows.getD i default
      { xBin := if b.getD i false then row.x1bin else []
        r := if b.getD i false then row.r1 else row.r01 ++ row.r02
        c := if b.getD i false then row.c0 else row.c1 } }

/-- One row of `ec_pve_batch_t::verify`'s recomputation, producing the
`(c0, c1, X0, X1)` quadruple fed back into the challenge hash (the stored
ciphertext fills the slot the retained data cannot recompute; the point
vectors are swapped when the challenge bit is set). Fails when the
retained seed has the wrong byte length. -/
def verRowB (q ek n : Nat) (inner : Buf) (Qin : List Point) (bi : Bool)
    (row : BatchRow) : Except Err (BaseCt × BaseCt × List Point × List Point) :=
  if bi then
    let xi := vectorFromBin q (csize q) n row.xBin
    if row.r.length ≠ 16 then Except.error Err.sizeInvalid
    else
      let rho1 := drbgBytes row.r 0 rhoSize
      let c1 := basePkeEncrypt ek inner (vectorToBin (csize q) xi) rho1
      let X0 := xi.map (smulG q)
      let X1 := List.zipWith (pointSub q) Qin X0
      Except.ok (row.c, c1, X1, X0)
  else
    if row.r.length ≠ 32 then Except.error Err.sizeInvalid
    else
      let x0src := drbgBytes (row.r.take 16) 0 (n * (csize q + statBytes))
      let xi := vectorFromBin q (csize q + statBytes) n x0src
      let rho0 := drbgBytes (row.r.drop 16) 0 rhoSize
      let c0 := basePkeEncrypt ek inner (row.r.take 16) rho0
      let X0 := xi.map (smulG q)
      let X1 := List.zipWith (pointSub q) Qin X0
      Except.ok (c0, row.c, X0, X1)

/-- The row recomputation of `ec_pve_batch_t::verify` over all rows (the
code's loop returns the first row error). -/
def recomputeRowsB (q : Nat) (inst : BatchInst) (ek : Nat) (Qin : List Point)
    (label : Buf) : Except Err (List (BaseCt × BaseCt × List Point × List Point)) :=
  (List.range kappa).mapM fun i =>
    verRowB q ek inst.n (pveLabelWithPoint label (encPointsH Qin)) Qin
      (inst.b.getD i false) (inst.rows.getD i default)

/-- `ec_pve_batch_t::verify(ek, Q, label)`. -/
def verifyB (q : Nat) (inst : BatchInst) (ek : Nat) (Qin : List Point) (label : Buf) :
    Except Err Unit :=
  if Qin.length ≠ inst.n then Except.error Err.badArg
  else if ¬ Qin.all curveCheckB then Except.error Err.badPoint
  else if Qin ≠ inst.Q then Except.error Err.qMismatch
  else if label ≠ inst.L then Except.error Err.labelMismatch
  else
    match recomputeRowsB q inst ek Qin label with
    | Except.error e => Except.error e
    | Except.ok recs =>
      if hashBits (challengeInputB Qin label (recs.map (·.1)) (recs.map (·.2.1))
          (recs.map (·.2.2.1)) (recs.map (·.2.2.2))) = inst.b then Except.ok ()
      else Except.error Err.proofInvalid

/-- `ec_pve_batch_t::restore_from_decrypted(row_index, decrypted_x_buf,
curve, x)`: recover the seed-derived vector `x0` and the blob-decoded
vector `x1` (which of the two came from the decryption depends on the
challenge bit), combine element-wise mod `q`, and accept only if every
element matches its commitment. -/
def restoreB (q : Nat) (inst : BatchInst) (i : Nat) (dec : Buf) : Except Err (List Nat) :=
  if i > kappa then Except.error Err.badArg
  else
    let bi := inst.b.getD i false
    let row := inst.rows.getD i default
    match (if bi then Except.ok (dec, row.xBin)
           else if row.r.length ≠ 32 then Except.error Err.sizeInvalid
           else Except.ok (row.r.take 16, dec) :
           Except Err (Buf × Buf)) with
    | Except.error e => Except.error e
    | Except.ok (r01, x1bin) =>
      let x0src := drbgBytes r01 0 (inst.n * (csize q + statBytes))
      let x0 := vectorFromBin q (csize q + statBytes) inst.n x0src
      let x1 := vectorFromBin q (csize q) inst.n x1bin
      let xv := List.zipWith (fun a b => (a + b) % q) x0 x1
      if inst.Q = xv.map (smulG q) then Except.ok xv
      else Except.error Err.reconstructFailed

/-- The row loop of `ec_pve_batch_t::decrypt` (same shape as the
single-value loop: abort on a failed opening, advance on a failed
reconstruction). -/
def decryptLoopB (q dk : Nat) (inner : Buf) (inst : BatchInst) :
    List Nat → Except Err (List Nat)
  | [] => Except.error Err.reconstructFailed
  | i :: rest =>
    match basePkeDecrypt dk inner (inst.rows.getD i default).c with
    | none => Except.error Err.decryptFailed
    | some buf =>
      match restoreB q inst i buf with
      | Except.ok xv => Except.ok xv
      | Except.error _ => decryptLoopB q dk inner inst rest

/-- `ec_pve_batch_t::decrypt(dk, ek, label, curve, x, skip_verify)` (note
the extra label check the batch decrypt performs even when verification is
skipped). -/
def decryptB (q dk ek : Nat) (label : Buf) (inst : BatchInst) (skipVerify : Bool) :
    Except Err (List Nat) :=
  match (if skipVerify then Except.ok () else verifyB q inst ek inst.Q label) with
  | Except.error e => Except.error e
  | Except.ok () =>
    if label ≠ inst.L then Except.error Err.labelMismatch
    else decryptLoopB q dk (pveLabelWithPoint label (encPointsH inst.Q)) inst
      (List.range kappa)

/-! ### Byte-level model of the base hybrid primitive
`kem_aead_ciphertext_t` and its `seal` path, with both built-in KEM
policies, threading the DRBG state explicitly and an explicit entropy
source for the `gen_random` fallbacks. HKDF, AES-GCM, OAEP and the SHA-256
digest are modelled by concrete deterministic stand-in functions with
domain-separated inputs; nothing below relies on more than their
determinism. -/

/-- `KEM_AEAD_IV_SIZE`. -/
def ivSize : Nat := 12

/-- `KEM_AEAD_TAG_SIZE`. -/
def tagSize : Nat := 12

/-- Stand-in bytes for the fixed HKDF domain-separation info string. -/
def kdfInfoStr : Buf := [67, 66, 77, 80, 67]

/-- Explicit state of a `drbg_aes_ctr_t` instance: its seed and the index
of the next call. -/
structure Drbg where
  seed : Buf
  ctr : Nat
deriving Repr

/-- `drbg_aes_ctr_t::gen(k)` with explicit state passing. -/
def drbgGenD (d : Drbg) (k : Nat) : Buf × Drbg :=
  (drbgBytes d.seed d.ctr k, ⟨d.seed, d.ctr + 1⟩)

/-- `drbg_aes_ctr_t::gen_bn(q)` with explicit state passing. -/
def drbgGenBnD (d : Drbg) (q : Nat) : Nat × Drbg :=
  (drbgBn d.seed d.ctr q, ⟨d.seed, d.ctr + 1⟩)

/-- The ambient OS entropy source behind `gen_random`, with its position:
each draw consumes one index. -/
structure Ent where
  f : Nat → Buf
  pos : Nat

/-- One `gen_random(k)` draw (normalized to `k` bytes). -/
def entGen (e : Ent) (k : Nat) : Buf × Ent :=
  ((e.f e.pos ++ List.replicate k 0).take k, ⟨e.f, e.pos + 1⟩)

/-- `hkdf_extract_sha256` stand-in. -/
def hkdfExtract (salt ikm : Buf) : Buf :=
  drbgBytes (encBufH salt ++ encBufH ikm) 0 32

/-- `hkdf_expand_sha256` stand-in. -/
def hkdfExpand (prk info : Buf) (k : Nat) : Buf :=
  drbgBytes (encBufH prk ++ encBufH info) 1 k

/-- `aes_gcm_t::encrypt` stand-in: ciphertext plus tag, a deterministic
function of key, nonce, associated data and plaintext. -/
def aesGcmEnc (key iv aad plain : Buf) : Buf :=
  drbgBytes (encBufH key ++ encBufH iv ++ encBufH aad ++ encBufH plain) 2
    (plain.length + tagSize)

/-- The byte-level `kem_aead_ciphertext_t`: KEM encapsulation, 12-byte
AEAD nonce, AEAD ciphertext with trailing tag. -/
structure KemAeadCt where
  kemCt : Buf
  iv : Buf
  aeadCt : Buf
deriving DecidableEq, Repr

/-- `rsa_pub_key_t::encrypt_oaep_with_seed` stand-in (deterministic in the
explicit seed). -/
def oaepEncryptWithSeed (ek : Nat) (msg seed : Buf) : Buf :=
  drbgBytes (natToBytesLE ek ++ encBufH msg ++ encBufH seed) 3 256

/-- `rsa_pub_key_t::encrypt_oaep` stand-in (the no-DRBG path, with the
padding randomness drawn from the entropy source made explicit). -/
def oaepEncryptFresh (ek : Nat) (msg pad : Buf) : Buf :=
  drbgBytes (natToBytesLE ek ++ encBufH msg ++ encBufH pad) 4 256

/-- `kem_policy_rsa_oaep_t::encapsulate`: the shared secret is 32 bytes
drawn from the DRBG when one is supplied (followed by an explicit OAEP
seed of `sha256_size` bytes), from OS randomness otherwise. -/
def rsaEncapsulate (ek : Nat) (drbg : Option Drbg) (e : Ent) :
    Buf × Buf × Option Drbg × Ent :=
  match drbg with
  | some d =>
    let (ss, d1) := drbgGenD d 32
    let (seed, d2) := drbgGenD d1 32
    (oaepEncryptWithSeed ek ss seed, ss, some d2, e)
  | none =>
    let (ss, e1) := entGen e 32
    let (pad, e2) := entGen e1 32
    (oaepEncryptFresh ek ss pad, ss, none, e2)

/-- Stand-in bytes for the RFC 9180 labels and suite id. -/
def hpkeV1 : Buf := [72, 80, 75, 69]

/-- Suite id `KEM || 0x0010` stand-in. -/
def suiteIdKem : Buf := [75, 69, 77, 0, 16]

/-- `labeled_extract`. -/
def labeledExtract (label ikm : Buf) : Buf :=
  hkdfExtract [] (hpkeV1 ++ suiteIdKem ++ label ++ ikm)

/-- `labeled_expand`. -/
def labeledExpand (prk label info : Buf) (k : Nat) : Buf :=
  hkdfExpand prk ([k / 256 % 256, k % 256] ++ hpkeV1 ++ suiteIdKem ++ label ++ info) k

/-- Label bytes `eae_prk`. -/
def lblEae : Buf := [101, 97, 101]

/-- Label bytes `shared_secret`. -/
def lblSharedSecret : Buf := [115, 115]

/-- `kem_policy_ecdh_p256_t::encapsulate` on the order-`q` curve with the
recipient public key `u·G`: ephemeral scalar from the DRBG when supplied
(`gen_bn(q)`) or fresh otherwise, HPKE-style labeled derivation over the
ECDH x-coordinate with context `enc || pub_key`. -/
def ecdhEncapsulate (q u : Nat) (drbg : Option Drbg) (ent : Ent) :
    Buf × Buf × Option Drbg × Ent :=
  let st :=
    match drbg with
    | some d =>
      let (v, d1) := drbgGenBnD d q
      (v, some d1, ent)
    | none =>
      let (b, e1) := entGen ent 32
      (bytesToNatLE b % q, (none : Option Drbg), e1)
  let e := st.1
  let enc := encPointH (smulG q e)
  let dh := toFixedLE 32 (e * u % q)
  let ctx := enc ++ encPointH (Point.onCurve (u % q))
  let prk := labeledExtract lblEae dh
  let ss := labeledExpand prk lblSharedSecret ctx 32
  (enc, ss, st.2.1, st.2.2)

/-- `kem_aead_ciphertext_t::seal` over a KEM policy given by its
encapsulate function: encapsulate, draw the 12-byte nonce from the DRBG if
one was supplied (OS randomness otherwise), derive the AEAD key by
HKDF extract-then-expand with the fixed info string, AES-GCM encrypt. -/
def sealKem (encap : Option Drbg → Ent → Buf × Buf × Option Drbg × Ent)
    (aad plain : Buf) (drbg : Option Drbg) (ent : Ent) :
    KemAeadCt × Option Drbg × Ent :=
  let r := encap drbg ent
  let kemCt := r.1
  let ss := r.2.1
  let st :=
    match r.2.2.1 with
    | some d =>
      let (v, d2) := drbgGenD d ivSize
      (v, some d2, r.2.2.2)
    | none =>
      let (v, e2) := entGen r.2.2.2 ivSize
      (v, (none : Option Drbg), e2)
  let ivb := st.1
  let prk := hkdfExtract [] ss
  let key := hkdfExpand prk kdfInfoStr 32
  ({ kemCt := kemCt, iv := ivb, aeadCt := aesGcmEnc key ivb aad plain }, st.2.1, st.2.2)

/-! ### Serialization (`converter_t`)
Length-prefixed field-by-field encoding in `convert` order, with a
decoder returning the decoded value and the remaining bytes. -/

/-- Length-prefixed buffer (`converter_t::convert(buf_t)`). -/
def encBuf (b : Buf) : Buf := b.length :: b

/-- Decoder for `encBuf`. -/
def decBuf : Buf → Option (Buf × Buf)
  | [] => none
  | len :: rest => if len ≤ rest.length then some (rest.take len, rest.drop len) else none

/-- Fixed-width field decoder (for `buf128_t` and other by-type sizes). -/
def decFixed (k : Nat) (s : Buf) : Option (Buf × Buf) :=
  if k ≤ s.length then some (s.take k, s.drop k) else none

/-- Length-prefixed bignum (`converter_t::convert(bn_t)`). -/
def encNat (x : Nat) : Buf := encBuf (natToBytesLE x)

/-- Decoder for `encNat`. -/
def decNat (s : Buf) : Option (Nat × Buf) :=
  (decBuf s).map fun p => (bytesToNatLE p.1, p.2)

/-- Serialized point (`converter_t::convert(ecc_point_t)`). -/
def encPointSer : Point → Buf
  | Point.onCurve e => 0 :: encNat e
  | Point.offCurve j => 1 :: encNat j

/-- Decoder for `encPointSer`. -/
def decPointSer : Buf → Option (Point × Buf)
  | [] => none
  | t :: rest =>
    (decNat rest).map fun p =>
      (if t = 0 then Point.onCurve p.1 else Point.offCurve p.1, p.2)

/-- Serialized base ciphertext (the `buf_t` holding `ser(ct)`). -/
def encCtSer (ct : BaseCt) : Buf :=
  encNat ct.ek ++ encBuf ct.label ++ encBuf ct.plain ++ encBuf ct.rho

/-- Decoder for `encCtSer`. -/
def decCtSer (s : Buf) : Option (BaseCt × Buf) :=
  (decNat s).bind fun p1 =>
  (decBuf p1.2).bind fun p2 =>
  (decBuf p2.2).bind fun p3 =>
  (decBuf p3.2).map fun p4 =>
  (⟨p1.1, p2.1, p3.1, p4.1⟩, p4.2)

/-- The serialized challenge bits (`buf128_t b`, one entry per bit, fixed
width `kappa`). -/
def encBitsSer (b : List Bool) : Buf := b.map fun v => if v then 1 else 0

/-- Decoder for `encBitsSer`. -/
def decBitsSer (s : Buf) : Option (List Bool × Buf) :=
  (decFixed kappa s).map fun p => (p.1.map fun v => decide (v = 1), p.2)

/-- Count-prefixed vector (`converter_t::convert(std::vector<T>)`). -/
def encListSer (enc : Point → Buf) (l : List Point) : Buf :=
  encNat l.length ++ l.flatMap enc

/-- Fixed-count sequence decoder. -/
def decListCount (dec : Buf → Option (Point × Buf)) : Nat → Buf → Option (List Point × Buf)
  | 0, s => some ([], s)
  | n + 1, s =>
    (dec s).bind fun p =>
    (decListCount dec n p.2).map fun pl => (p.1 :: pl.1, pl.2)

/-- Decoder for `encListSer`. -/
def decListSer (dec : Buf → Option (Point × Buf)) (s : Buf) : Option (List Point × Buf) :=
  (decNat s).bind fun p => decListCount dec p.1 p.2

/-- The row section of `ec_pve_t::convert` in write mode: per row
`x_rows[i], r[i], c[i]` (the seed raw at its fixed 16-byte width). -/
def serRowsS : List Nat → List Buf → List BaseCt → Buf
  | x :: xs, rr :: rs, ct :: cs => encNat x ++ rr ++ encCtSer ct ++ serRowsS xs rs cs
  | _, _, _ => []

/-- `ec_pve_t::convert` in write mode: `Q, L, b` then the `kappa` rows. -/
def serS (inst : SingleInst) : Buf :=
  encPointSer inst.Q ++ encBuf inst.L ++ encBitsSer inst.b ++
    serRowsS inst.xRows inst.r inst.c

/-- The row-section decoder of `ec_pve_t::convert` in read mode. -/
def deserRowsS : Nat → Buf → Option ((List Nat × List Buf × List BaseCt) × Buf)
  | 0, s => some (([], [], []), s)
  | k + 1, s =>
    (decNat s).bind fun p1 =>
    (decFixed 16 p1.2).bind fun p2 =>
    (decCtSer p2.2).bind fun p3 =>
    (deserRowsS k p3.2).map fun pr =>
      ((p1.1 :: pr.1.1, p2.1 :: pr.1.2.1, p3.1 :: pr.1.2.2), pr.2)

/-- `ec_pve_t::convert` in read mode. -/
def deserS (s : Buf) : Option (SingleInst × Buf) :=
  (decPointSer s).bind fun pQ =>
  (decBuf pQ.2).bind fun pL =>
  (decBitsSer pL.2).bind fun pb =>
  (deserRowsS kappa pb.2).map fun pr =>
    ({ L := pL.1, Q := pQ.1, b := pb.1, xRows := pr.1.1, r := pr.1.2.1, c := pr.1.2.2 },
      pr.2)

/-- The row section of `ec_pve_batch_t::convert` in write mode: per row
`x_bin, r, c` (all length-prefixed). -/
def serRowsB : List BatchRow → Buf
  | [] => []
  | row :: rows => encBuf row.xBin ++ encBuf row.r ++ encCtSer row.c ++ serRowsB rows

/-- `ec_pve_batch_t::convert` in write mode: fails (`converter.set_error`)
unless the commitment vector has exactly `n` entries, then `Q, L, b` and
the `kappa` rows. -/
def serB (inst : BatchInst) : Option Buf :=
  if inst.Q.length ≠ inst.n then none
  else some (encListSer encPointSer inst.Q ++ encBuf inst.L ++ encBitsSer inst.b ++
    serRowsB inst.rows)

/-- The row-section decoder of `ec_pve_batch_t::convert` in read mode. -/
def deserRowsB : Nat → Buf → Option (List BatchRow × Buf)
  | 0, s => some ([], s)
  | k + 1, s =>
    (decBuf s).bind fun p1 =>
    (decBuf p1.2).bind fun p2 =>
    (decCtSer p2.2).bind fun p3 =>
    (deserRowsB k p3.2).map fun pr =>
      (⟨p1.1, p2.1, p3.1⟩ :: pr.1, pr.2)

/-- `ec_pve_batch_t::convert` in read mode, on an engine constructed with
`batch_count = n`. -/
def deserB (n : Nat) (s : Buf) : Option (BatchInst × Buf) :=
  (decListSer decPointSer s).bind fun pQ =>
  (decBuf pQ.2).bind fun pL =>
  (decBitsSer pL.2).bind fun pb =>
  (deserRowsB kappa pb.2).map fun pr =>
    ({ n := n, L := pL.1, Q := pQ.1, b := pb.1, rows := pr.1 }, pr.2)

/-- Serialization of `kem_aead_ciphertext_t::convert`: length-prefixed
`kem_ct`, the nonce raw at its fixed 12-byte width, length-prefixed AEAD
ciphertext. -/
def serKemCt (ct : KemAeadCt) : Buf := encBuf ct.kemCt ++ ct.iv ++ encBuf ct.aeadCt

/-- Decoder for `serKemCt`. -/
def deserKemCt (s : Buf) : Option (KemAeadCt × Buf) :=
  (decBuf s).bind fun p1 =>
  (decFixed ivSize p1.2).bind fun p2 =>
  (decBuf p2.2).map fun p3 =>
  ({ kemCt := p1.1, iv := p2.1, aeadCt := p3.1 }, p3.2)

/-- `pve_base_pke_impl_t::encrypt` at the byte level over the RSA-OAEP
policy: seed a DRBG with `rho`, seal, serialize the ciphertext. -/
def pveBasePkeEncRsa (ek : Nat) (label plain rho : Buf) (ent : Ent) : Buf :=
  serKemCt (sealKem (rsaEncapsulate ek) label plain (some ⟨rho, 0⟩) ent).1

/-- `pve_base_pke_impl_t::encrypt` at the byte level over the ECDH
policy. -/
def pveBasePkeEncEcdh (q u : Nat) (label plain rho : Buf) (ent : Ent) : Buf :=
  serKemCt (sealKem (ecdhEncapsulate q u) label plain (some ⟨rho, 0⟩) ent).1

/-- The recomputed batch challenge of `ec_pve_batch_t::verify`: the row
recomputation followed by the Fiat–Shamir hash (fails when a stored row
seed has the wrong byte length). -/
def recomputeBB (q : Nat) (inst : BatchInst) (ek : Nat) (Qin : List Point)
    (label : Buf) : Except Err (List Bool) :=
  (recomputeRowsB q inst ek Qin label).map fun recs =>
    hashBits (challengeInputB Qin label (recs.map (·.1)) (recs.map (·.2.1))
      (recs.map (·.2.2.1)) (recs.map (·.2.2.2)))

/-- Structural wellformedness of a stored single-value instance: the row
arrays have `kappa` entries and every retained seed is a `buf128_t`
(16 bytes) — true of every instance `encrypt` produces and enforced
field-by-field by deserialization. -/
def wfS (inst : SingleInst) : Prop :=
  inst.b.length = kappa ∧ inst.xRows.length = kappa ∧ inst.r.length = kappa ∧
    inst.c.length = kappa ∧ ∀ rr ∈ inst.r, rr.length = 16

instance (inst : SingleInst) : Decidable (wfS inst) := by
  unfold wfS
  infer_instance

/-- Structural wellformedness of a stored batch instance. -/
def wfB (inst : BatchInst) : Prop :=
  inst.b.length = kappa ∧ inst.rows.length = kappa ∧ inst.Q.length = inst.n

instance (inst : BatchInst) : Decidable (wfB inst) := by
  unfold wfB
  infer_instance

/-- A concrete entropy stream for witnesses and counterexamples. -/
def entW : Nat → Buf := fun i => [(i + 3) % 256, (7 * i + 5) % 256]

/-- A small concrete wellformed single-value instance. -/
def sampleInstS : SingleInst :=
  { L := [1], Q := Point.onCurve 5, b := List.replicate kappa false,
    xRows := List.replicate kappa 0, r := List.replicate kappa (List.replicate 16 0),
    c := List.replicate kappa default }

/-- A small concrete wellformed batch instance. -/
def sampleInstB : BatchInst :=
  { n := 1, L := [1], Q := [Point.onCurve 5], b := List.replicate kappa false,
    rows := List.replicate kappa default }

/-- A small concrete hybrid ciphertext. -/
def sampleKemCt : KemAeadCt :=
  { kemCt := [1, 2], iv := List.replicate ivSize 0, aeadCt := [3] }

/-- The reduced scalar vector `x` of `ec_pve_batch_t::encrypt` (each input
taken mod the curve order). -/
def xsRed (q : Nat) (xsIn : List Nat) : List Nat := xsIn.map (· % q)

/-- The commitment vector `Q[j] = x[j]·G` of a batch encryption. -/
def qsOf (q : Nat) (xsIn : List Nat) : List Point := (xsRed q xsIn).map (smulG q)

/-- The inner label of a batch instance. -/
def innerBL (q : Nat) (label : Buf) (xsIn : List Nat) : Buf :=
  pveLabelWithPoint label (encPointsH (qsOf q xsIn))

/-- Transient row `i` as computed inside `ec_pve_batch_t::encrypt`. -/
def rowBi (q ek : Nat) (label : Buf) (xsIn : List Nat) (ent : Nat → Buf) (i : Nat) :
    EncRowB :=
  encRowB q ek xsIn.length (innerBL q label xsIn) (qsOf q xsIn) (xsRed q xsIn) ent i

/-! ### Helper lemmas -/

theorem natToBytesLEGo_fuel (x : Nat) : ∀ fuel1 fuel2 : Nat, x ≤ fuel1 → x ≤ fuel2 →
    natToBytesLEGo fuel1 x = natToBytesLEGo fuel2 x := by
  induction x using Nat.strong_induction_on with
  | _ x ih =>
    intro fuel1 fuel2 h1 h2
    match x, fuel1, fuel2 with
    | 0, f1, f2 => cases f1 <;> cases f2 <;> rfl
    | n + 1, f1 + 1, f2 + 1 =>
      rw [natToBytesLEGo, natToBytesLEGo]
      have hdiv : (n + 1) / 256 < n + 1 := Nat.div_lt_self (Nat.succ_pos n) (by norm_num)
      exact congrArg _ (ih ((n + 1) / 256) hdiv f1 f2 (by omega) (by omega))

theorem natToBytesLE_zero : natToBytesLE 0 = [] := rfl

theorem natToBytesLE_succ (n : Nat) :
    natToBytesLE (n + 1) = ((n + 1) % 256) :: natToBytesLE ((n + 1) / 256) := by
  show natToBytesLEGo (n + 1) (n + 1) = _
  rw [natToBytesLEGo]
  have hdiv : (n + 1) / 256 < n + 1 := Nat.div_lt_self (Nat.succ_pos n) (by norm_num)
  exact congrArg _ (natToBytesLEGo_fuel ((n + 1) / 256) n ((n + 1) / 256)
    (by omega) (le_refl _))

theorem bytesToNatLE_natToBytesLE (x : Nat) : bytesToNatLE (natToBytesLE x) = x := by
  induction x using Nat.strong_induction_on with
  | _ x ih =>
    match x with
    | 0 => simp [natToBytesLE_zero, bytesToNatLE]
    | n + 1 =>
      rw [natToBytesLE_succ, bytesToNatLE, ih ((n + 1) / 256)
        (Nat.div_lt_self (Nat.succ_pos n) (by norm_num))]
      exact Nat.mod_add_div (n + 1) 256

theorem bytesToNatLE_append_zeros (l : Buf) (k : Nat) :
    bytesToNatLE (l ++ List.replicate k 0) = bytesToNatLE l := by
  induction l with
  | nil =>
    induction k with
    | zero => rfl
    | succ k ihk => simpa [List.replicate_succ, bytesToNatLE] using ihk
  | cons b rest ih => simp [bytesToNatLE, ih]

theorem natToBytesLE_length_le (x w : Nat) (h : x < 256 ^ w) :
    (natToBytesLE x).length ≤ w := by
  induction x using Nat.strong_induction_on generalizing w with
  | _ x ih =>
    match x with
    | 0 => simp [natToBytesLE_zero]
    | n + 1 =>
      match w with
      | 0 => omega
      | w + 1 =>
        rw [natToBytesLE_succ]
        simp only [List.length_cons]
        have hdiv : (n + 1) / 256 < 256 ^ w := by
          apply Nat.div_lt_of_lt_mul
          calc n + 1 < 256 ^ (w + 1) := h
          _ = 256 * 256 ^ w := by ring
        have := ih ((n + 1) / 256) (Nat.div_lt_self (Nat.succ_pos n) (by norm_num)) w hdiv
        omega

theorem bytesToNatLE_lt (l : Buf) (h : ∀ b ∈ l, b < 256) :
    bytesToNatLE l < 256 ^ l.length := by
  induction l with
  | nil => simp [bytesToNatLE]
  | cons b rest ih =>
    have hb : b < 256 := h b (List.mem_cons_self _ _)
    have hr := ih (fun c hc => h c (List.mem_cons_of_mem _ hc))
    simp only [bytesToNatLE, List.length_cons, pow_succ]
    calc b + 256 * bytesToNatLE rest
        ≤ 255 + 256 * bytesToNatLE rest := by omega
      _ < 256 * (bytesToNatLE rest + 1) := by omega
      _ ≤ 256 * 256 ^ rest.length := by
          have : bytesToNatLE rest + 1 ≤ 256 ^ rest.length := hr
          exact Nat.mul_le_mul_left _ this
      _ = 256 ^ rest.length * 256 := by ring

theorem natToBytesLE_bytes_lt (x : Nat) : ∀ b ∈ natToBytesLE x, b < 256 := by
  induction x using Nat.strong_induction_on with
  | _ x ih =>
    match x with
    | 0 => simp [natToBytesLE_zero]
    | n + 1 =>
      rw [natToBytesLE_succ]
      intro b hb
      rcases List.mem_cons.1 hb with h | h
      · subst h; exact Nat.mod_lt _ (by norm_num)
      · exact ih ((n + 1) / 256) (Nat.div_lt_self (Nat.succ_pos n) (by norm_num)) b h

theorem toFixedLE_length (w x : Nat) (h : x < 256 ^ w) : (toFixedLE w x).length = w := by
  have hle := natToBytesLE_length_le x w h
  simp [toFixedLE]

theorem toFixedLE_eq_append (w x : Nat) (h : x < 256 ^ w) :
    toFixedLE w x = natToBytesLE x ++ List.replicate (w - (natToBytesLE x).length) 0 := by
  have hle := natToBytesLE_length_le x w h
  unfold toFixedLE
  rw [List.take_append_eq_append_take, List.take_of_length_le hle, List.take_replicate]
  congr 1
  congr 1
  omega

theorem bytesToNatLE_toFixedLE (w x : Nat) (h : x < 256 ^ w) :
    bytesToNatLE (toFixedLE w x) = x := by
  rw [toFixedLE_eq_append w x h, bytesToNatLE_append_zeros, bytesToNatLE_natToBytesLE]

theorem to16_length (b : Buf) : (to16 b).length = 16 := by
  simp [to16]

theorem drbgBytes_length (seed : Buf) (ctr k : Nat) : (drbgBytes seed ctr k).length = k := by
  simp [drbgBytes]

theorem drbgBn_lt (seed : Buf) (ctr q : Nat) (hq : 0 < q) : drbgBn seed ctr q < q :=
  Nat.mod_lt _ hq

theorem encBufH_right_cancel (a b tail : Buf) (h : encBufH a ++ tail = encBufH b ++ tail) :
    a = b := by
  have := List.append_cancel_right h
  exact ((by simpa [encBufH] using this : a.length = b.length ∧ a = b)).2

theorem pveLabelWithPoint_label_inj (l0 l1 qenc : Buf)
    (h : pveLabelWithPoint l0 qenc = pveLabelWithPoint l1 qenc) : l0 = l1 := by
  exact List.append_cancel_right h

theorem hashBits_length (inp : Buf) : (hashBits inp).length = kappa := by
  simp [hashBits]

theorem getD_map_range {α : Type} (f : Nat → α) (n i : Nat) (h : i < n) (d : α) :
    ((List.range n).map f).getD i d = f i := by
  rw [List.getD_eq_getElem _ _ (by simpa using h)]
  simp

theorem mod_sub_add_cancel (q a b : Nat) (ha : a < q) (hb : b < q) :
    ((a + (q - b)) % q + b) % q = a := by
  rw [Nat.mod_add_mod]
  have h1 : a + (q - b) + b = a + q := by omega
  rw [h1, Nat.add_mod_right, Nat.mod_eq_of_lt ha]

theorem mod_add_sub_cancel (q a b : Nat) (ha : a < q) (hb : b < q) :
    (b + (a + (q - b)) % q) % q = a := by
  rw [Nat.add_comm]
  exact mod_sub_add_cancel q a b ha hb

theorem mod_sub_swap (q a b : Nat) (ha : a < q) (hb : b < q) :
    (a + (q - (a + (q - b)) % q)) % q = b := by
  have hq : 0 < q := Nat.lt_of_le_of_lt (Nat.zero_le a) ha
  set t := (a + (q - b)) % q with ht
  have htlt : t < q := Nat.mod_lt _ hq
  have h1 : ((a + (q - t)) % q + t) % q = a := mod_sub_add_cancel q a t ha htlt
  have h2 : (b + t) % q = a := mod_add_sub_cancel q a b ha hb
  have h3 : ((a + (q - t)) % q + t) % q = (b + t) % q := by rw [h1, h2]
  have h4 : (a + (q - t)) % q ≡ b [MOD q] :=
    Nat.ModEq.add_right_cancel' t h3
  have h5 : (a + (q - t)) % q % q = b % q := h4
  rw [Nat.mod_mod_of_dvd _ dvd_rfl] at h5
  rw [h5, Nat.mod_eq_of_lt hb]

theorem smulG_mod (q x : Nat) : smulG q (x % q) = smulG q x := by
  simp [smulG, Nat.mod_mod_of_dvd _ dvd_rfl]

/-! ### The single-value engine on an honest instance -/

theorem encryptS_Q (q ek : Nat) (label : Buf) (x : Nat) (ent : Nat → Buf) :
    (encryptS q ek label x ent).Q = Point.onCurve (x % q) := by
  simp [encryptS, smulG, Nat.mod_mod_of_dvd _ dvd_rfl]

theorem encryptS_L (q ek : Nat) (label : Buf) (x : Nat) (ent : Nat → Buf) :
    (encryptS q ek label x ent).L = label := rfl

theorem encryptS_b_length (q ek : Nat) (label : Buf) (x : Nat) (ent : Nat → Buf) :
    (encryptS q ek label x ent).b.length = kappa := by
  simp [encryptS, hashBits_length]

theorem encRowS_x0_lt (q ek : Nat) (hq : 0 < q) (inner : Buf) (Qp : Point) (bnx : Nat)
    (ent : Nat → Buf) (i : Nat) : (encRowS q ek inner Qp bnx ent i).x0 < q :=
  Nat.mod_lt _ hq

theorem encRowS_x1_lt (q ek : Nat) (hq : 0 < q) (inner : Buf) (Qp : Point) (bnx : Nat)
    (ent : Nat → Buf) (i : Nat) : (encRowS q ek inner Qp bnx ent i).x1 < q :=
  Nat.mod_lt _ hq

/-- The two swap identities of the cut-and-choose row: with `Q = bnx·G`,
`X1 = Q - x0·G` equals `x1·G`, and `Q - x1·G` equals `x0·G`. -/
theorem pointSub_row (q bnx x0 : Nat) (hq : 0 < q) (hbnx : bnx < q) (hx0 : x0 < q) :
    pointSub q (Point.onCurve bnx) (smulG q x0) = smulG q ((bnx + (q - x0)) % q) ∧
    pointSub q (Point.onCurve bnx) (smulG q ((bnx + (q - x0)) % q)) = smulG q x0 := by
  constructor
  · simp [pointSub, smulG, Nat.mod_eq_of_lt hbnx, Nat.mod_eq_of_lt hx0,
      Nat.mod_mod_of_dvd _ dvd_rfl]
  · have hx1 : (bnx + (q - x0)) % q < q := Nat.mod_lt _ hq
    simp only [pointSub, smulG, Nat.mod_eq_of_lt hbnx, Nat.mod_eq_of_lt hx1,
      Nat.mod_mod_of_dvd _ dvd_rfl]
    rw [mod_sub_swap q bnx x0 hbnx hx0, Nat.mod_eq_of_lt hx0]

/-- Honest row recomputation: on a row persisted by `encrypt`, `verify`
recomputes exactly the quadruple that entered the challenge hash. -/
theorem verRowS_encRowS (q ek : Nat) (hq : 0 < q) (inner : Buf) (bnx : Nat)
    (hbnx : bnx < q) (ent : Nat → Buf) (i : Nat) (bi : Bool) :
    verRowS q ek inner (Point.onCurve bnx) bi
      (if bi then (encRowS q ek inner (Point.onCurve bnx) bnx ent i).x1 else 0)
      (if bi then (encRowS q ek inner (Point.onCurve bnx) bnx ent i).r1
       else (encRowS q ek inner (Point.onCurve bnx) bnx ent i).r0)
      (if bi then (encRowS q ek inner (Point.onCurve bnx) bnx ent i).c0
       else (encRowS q ek inner (Point.onCurve bnx) bnx ent i).c1) =
    ((encRowS q ek inner (Point.onCurve bnx) bnx ent i).c0,
     (encRowS q ek inner (Point.onCurve bnx) bnx ent i).c1,
     (encRowS q ek inner (Point.onCurve bnx) bnx ent i).X0,
     (encRowS q ek inner (Point.onCurve bnx) bnx ent i).X1) := by
  have hx0 : drbgBn (to16 (ent (2 * i))) 0 q < q := Nat.mod_lt _ hq
  cases bi with
  | false =>
    simp [verRowS, encRowS]
  | true =>
    have hswap := pointSub_row q bnx (drbgBn (to16 (ent (2 * i))) 0 q) hq hbnx hx0
    simp only [verRowS, encRowS, if_true, Prod.mk.injEq, true_and, and_self, eq_self_iff_true]
    exact ⟨hswap.2, hswap.1.symm⟩

theorem smulG_self_mod (q x : Nat) : smulG q (x % q) = Point.onCurve (x % q) := by
  simp [smulG, Nat.mod_mod_of_dvd _ dvd_rfl]

theorem encryptS_xRows_getD (q ek : Nat) (label : Buf) (x : Nat) (ent : Nat → Buf)
    (i : Nat) (h : i < kappa) :
    (encryptS q ek label x ent).xRows.getD i 0 =
      (if (encryptS q ek label x ent).b.getD i false
       then (encRowS q ek (pveLabelWithPoint label (encPointH (smulG q (x % q))))
         (smulG q (x % q)) (x % q) ent i).x1
       else 0) := by
  simp only [encryptS]
  rw [getD_map_range _ _ _ h, getD_map_range _ _ _ h]

theorem encryptS_r_getD (q ek : Nat) (label : Buf) (x : Nat) (ent : Nat → Buf)
    (i : Nat) (h : i < kappa) :
    (encryptS q ek label x ent).r.getD i [] =
      (if (encryptS q ek label x ent).b.getD i false
       then (encRowS q ek (pveLabelWithPoint label (encPointH (smulG q (x % q))))
         (smulG q (x % q)) (x % q) ent i).r1
       else (encRowS q ek (pveLabelWithPoint label (encPointH (smulG q (x % q))))
         (smulG q (x % q)) (x % q) ent i).r0) := by
  simp only [encryptS]
  rw [getD_map_range _ _ _ h, getD_map_range _ _ _ h]

theorem encryptS_c_getD (q ek : Nat) (label : Buf) (x : Nat) (ent : Nat → Buf)
    (i : Nat) (h : i < kappa) :
    (encryptS q ek label x ent).c.getD i default =
      (if (encryptS q ek label x ent).b.getD i false
       then (encRowS q ek (pveLabelWithPoint label (encPointH (smulG q (x % q))))
         (smulG q (x % q)) (x % q) ent i).c0
       else (encRowS q ek (pveLabelWithPoint label (encPointH (smulG q (x % q))))
         (smulG q (x % q)) (x % q) ent i).c1) := by
  simp only [encryptS]
  rw [getD_map_range _ _ _ h, getD_map_range _ _ _ h]

/-- The challenge recomputed by `verify` on an honest instance, with the
instance's own commitment and label, equals the stored challenge. -/
theorem recomputeBS_encryptS (q ek : Nat) (hq : 0 < q) (label : Buf) (x : Nat)
    (ent : Nat → Buf) :
    recomputeBS q (encryptS q ek label x ent) ek (encryptS q ek label x ent).Q label
      = (encryptS q ek label x ent).b := by
  have hbnx : x % q < q := Nat.mod_lt _ hq
  rw [recomputeBS, encryptS_Q]
  have hrows : ((List.range kappa).map fun i =>
      verRowS q ek (pveLabelWithPoint label (encPointH (Point.onCurve (x % q))))
        (Point.onCurve (x % q))
        ((encryptS q ek label x ent).b.getD i false)
        ((encryptS q ek label x ent).xRows.getD i 0)
        ((encryptS q ek label x ent).r.getD i [])
        ((encryptS q ek label x ent).c.getD i default)) =
      (List.range kappa).map fun i =>
        ((encRowS q ek (pveLabelWithPoint label (encPointH (smulG q (x % q))))
            (smulG q (x % q)) (x % q) ent i).c0,
         (encRowS q ek (pveLabelWithPoint label (encPointH (smulG q (x % q))))
            (smulG q (x % q)) (x % q) ent i).c1,
         (encRowS q ek (pveLabelWithPoint label (encPointH (smulG q (x % q))))
            (smulG q (x % q)) (x % q) ent i).X0,
         (encRowS q ek (pveLabelWithPoint label (encPointH (smulG q (x % q))))
            (smulG q (x % q)) (x % q) ent i).X1) := by
    apply List.map_congr_left
    intro i hi
    have h : i < kappa := List.mem_range.1 hi
    rw [encryptS_xRows_getD q ek label x ent i h, encryptS_r_getD q ek label x ent i h,
      encryptS_c_getD q ek label x ent i h]
    rw [smulG_self_mod] at *
    exact verRowS_encRowS q ek hq _ (x % q) hbnx ent i _
  rw [hrows]
  simp only [List.map_map]
  conv_rhs => rw [encryptS]
  simp only [smulG_self_mod]
  rfl

/-- `verify` succeeds on an honest instance queried with its own
commitment point and label. -/
theorem verifyS_encryptS (q ek : Nat) (hq : 0 < q) (label : Buf) (x : Nat)
    (ent : Nat → Buf) :
    verifyS q (encryptS q ek label x ent) ek (encryptS q ek label x ent).Q label
      = Except.ok () := by
  rw [verifyS]
  rw [recomputeBS_encryptS q ek hq label x ent]
  simp [encryptS_Q, curveCheckB, encryptS_L]

/-- Evaluation of `restore_from_decrypted` when the reconstructed
candidate matches the commitment. -/
theorem restoreS_eval (q : Nat) (inst : SingleInst) (i : Nat) (xbuf : Buf) (w : Nat)
    (hw : (if inst.b.getD i false then inst.xRows.getD i 0
           else drbgBn (inst.r.getD i []) 0 q) = w)
    (hQ : smulG q ((bytesToNatLE xbuf + w) % q) = inst.Q)
    (v : Nat) (hv : (bytesToNatLE xbuf + w) % q = v) :
    restoreS q inst i xbuf = some v := by
  simp only [restoreS, hw, hv]
  rw [if_pos (hv ▸ hQ)]

/-- On an honest instance every row opens under the matching private key
and the instance's own label, and reconstructs the committed scalar. -/
theorem decrypt_row_encryptS (q ek : Nat) (hq : 0 < q) (label : Buf) (x : Nat)
    (ent : Nat → Buf) (i : Nat) (h : i < kappa) :
    basePkeDecrypt ek (pveLabelWithPoint label (encPointH (encryptS q ek label x ent).Q))
        ((encryptS q ek label x ent).c.getD i default) =
      some (natToBytesLE (if (encryptS q ek label x ent).b.getD i false
        then (encRowS q ek (pveLabelWithPoint label (encPointH (smulG q (x % q))))
          (smulG q (x % q)) (x % q) ent i).x0
        else (encRowS q ek (pveLabelWithPoint label (encPointH (smulG q (x % q))))
          (smulG q (x % q)) (x % q) ent i).x1)) ∧
    restoreS q (encryptS q ek label x ent) i
      (natToBytesLE (if (encryptS q ek label x ent).b.getD i false
        then (encRowS q ek (pveLabelWithPoint label (encPointH (smulG q (x % q))))
          (smulG q (x % q)) (x % q) ent i).x0
        else (encRowS q ek (pveLabelWithPoint label (encPointH (smulG q (x % q))))
          (smulG q (x % q)) (x % q) ent i).x1)) = some (x % q) := by
  have hbnx : x % q < q := Nat.mod_lt _ hq
  have hx0 : (encRowS q ek (pveLabelWithPoint label (encPointH (smulG q (x % q))))
      (smulG q (x % q)) (x % q) ent i).x0 < q := encRowS_x0_lt q ek hq _ _ _ ent i
  constructor
  · rw [encryptS_c_getD q ek label x ent i h, encryptS_Q]
    cases hb : (encryptS q ek label x ent).b.getD i false with
    | false => simp [encRowS, basePkeDecrypt, basePkeEncrypt, smulG_self_mod]
    | true => simp [encRowS, basePkeDecrypt, basePkeEncrypt, smulG_self_mod]
  · have hx1 : (encRowS q ek (pveLabelWithPoint label (encPointH (smulG q (x % q))))
        (smulG q (x % q)) (x % q) ent i).x1 = ((x % q) + (q -
          (encRowS q ek (pveLabelWithPoint label (encPointH (smulG q (x % q))))
            (smulG q (x % q)) (x % q) ent i).x0)) % q := by
      simp [encRowS]
    cases hb : (encryptS q ek label x ent).b.getD i false with
    | false =>
      have hw : (if (encryptS q ek label x ent).b.getD i false
          then (encryptS q ek label x ent).xRows.getD i 0
          else drbgBn ((encryptS q ek label x ent).r.getD i []) 0 q) =
          (encRowS q ek (pveLabelWithPoint label (encPointH (smulG q (x % q))))
            (smulG q (x % q)) (x % q) ent i).x0 := by
        rw [hb, if_neg (by simp), encryptS_r_getD q ek label x ent i h, hb,
          if_neg (by simp)]
        simp [encRowS, drbgBn]
      have hsum : (bytesToNatLE (natToBytesLE
          (encRowS q ek (pveLabelWithPoint label (encPointH (smulG q (x % q))))
            (smulG q (x % q)) (x % q) ent i).x1) +
          (encRowS q ek (pveLabelWithPoint label (encPointH (smulG q (x % q))))
            (smulG q (x % q)) (x % q) ent i).x0) % q = x % q := by
        rw [bytesToNatLE_natToBytesLE, hx1]
        exact mod_sub_add_cancel q (x % q) _ hbnx hx0
      rw [if_neg (by simp : ¬ (false = true))]
      exact restoreS_eval q (encryptS q ek label x ent) i _ _ hw
        (by rw [hsum, encryptS_Q]; exact smulG_self_mod q x)
        (x % q) (by rw [hsum])
    | true =>
      have hw : (if (encryptS q ek label x ent).b.getD i false
          then (encryptS q ek label x ent).xRows.getD i 0
          else drbgBn ((encryptS q ek label x ent).r.getD i []) 0 q) =
          (encRowS q ek (pveLabelWithPoint label (encPointH (smulG q (x % q))))
            (smulG q (x % q)) (x % q) ent i).x1 := by
        rw [hb, if_pos rfl, encryptS_xRows_getD q ek label x ent i h, hb, if_pos rfl]
      have hsum : (bytesToNatLE (natToBytesLE
          (encRowS q ek (pveLabelWithPoint label (encPointH (smulG q (x % q))))
            (smulG q (x % q)) (x % q) ent i).x0) +
          (encRowS q ek (pveLabelWithPoint label (encPointH (smulG q (x % q))))
            (smulG q (x % q)) (x % q) ent i).x1) % q = x % q := by
        rw [bytesToNatLE_natToBytesLE, hx1]
        exact mod_add_sub_cancel q (x % q) _ hbnx hx0
      rw [if_pos (rfl : (true = true))]
      exact restoreS_eval q (encryptS q ek label x ent) i _ _ hw
        (by rw [hsum, encryptS_Q]; exact smulG_self_mod q x)
        (x % q) (by rw [hsum])

/-- The row loop returns the first successful reconstruction. -/
theorem decryptLoopS_first_ok (q dk : Nat) (inner : Buf) (inst : SingleInst) (i : Nat)
    (rest : List Nat) (xbuf : Buf) (v : Nat)
    (hopen : basePkeDecrypt dk inner (inst.c.getD i default) = some xbuf)
    (hres : restoreS q inst i xbuf = some v) :
    decryptLoopS q dk inner inst (i :: rest) = Except.ok v := by
  rw [decryptLoopS, hopen]
  simp only []
  rw [hres]

/-- Full decryption of an honest instance with the matching private key
returns the committed (reduced) scalar, with the verify pass enabled. -/
theorem decryptS_encryptS (q ek : Nat) (hq : 0 < q) (label : Buf) (x : Nat)
    (ent : Nat → Buf) :
    decryptS q ek ek label (encryptS q ek label x ent) false = Except.ok (x % q) := by
  have h0 : (0 : Nat) < kappa := by decide
  have hrow := decrypt_row_encryptS q ek hq label x ent 0 h0
  rw [decryptS]
  rw [if_neg (by simp : ¬ (false = true))]
  rw [verifyS_encryptS q ek hq label x ent]
  have hrange : List.range kappa = 0 :: List.map Nat.succ (List.range 127) := by
    rw [show kappa = 127 + 1 from rfl, List.range_succ_eq_map]
  rw [hrange]
  exact decryptLoopS_first_ok q ek _ _ 0 _ _ _ hrow.1 hrow.2

/-! ### The batch engine on an honest instance -/

theorem take_append_len (l1 l2 : Buf) (n : Nat) (h : l1.length = n) :
    (l1 ++ l2).take n = l1 := by
  subst h; exact List.take_left l1 l2

theorem drop_append_len (l1 l2 : Buf) (n : Nat) (h : l1.length = n) :
    (l1 ++ l2).drop n = l2 := by
  subst h; exact List.drop_left l1 l2

theorem vectorFromBin_length (q w n : Nat) (src : Buf) :
    (vectorFromBin q w n src).length = n := by
  induction n generalizing src with
  | zero => rfl
  | succ n ih => simp [vectorFromBin, ih]

theorem vectorFromBin_mem_lt (q w n : Nat) (hq : 0 < q) (src : Buf) :
    ∀ a ∈ vectorFromBin q w n src, a < q := by
  induction n generalizing src with
  | zero => simp [vectorFromBin]
  | succ n ih =>
    intro a ha
    rcases List.mem_cons.1 ha with h | h
    · subst h; exact Nat.mod_lt _ hq
    · exact ih _ a h

theorem q_lt_pow_csize (q : Nat) : q < 256 ^ csize q := by
  conv_lhs => rw [← bytesToNatLE_natToBytesLE q]
  exact bytesToNatLE_lt _ (natToBytesLE_bytes_lt q)

theorem vectorFromBin_vectorToBin (q w : Nat) (xs : List Nat)
    (hpow : ∀ a ∈ xs, a < 256 ^ w) (hlt : ∀ a ∈ xs, a < q) (rest : Buf) :
    vectorFromBin q w xs.length (vectorToBin w xs ++ rest) = xs := by
  induction xs generalizing rest with
  | nil => rfl
  | cons a t ih =>
    have hpa : a < 256 ^ w := hpow a (List.mem_cons_self _ _)
    have hta : a < q := hlt a (List.mem_cons_self _ _)
    have hlen : (toFixedLE w a).length = w := toFixedLE_length w a hpa
    simp only [List.length_cons, vectorFromBin, vectorToBin, List.flatMap_cons,
      List.append_assoc]
    rw [take_append_len _ _ w hlen, drop_append_len _ _ w hlen,
      bytesToNatLE_toFixedLE w a hpa, Nat.mod_eq_of_lt hta]
    exact congrArg _ (ih (fun b hb => hpow b (List.mem_cons_of_mem _ hb))
      (fun b hb => hlt b (List.mem_cons_of_mem _ hb)) rest)

theorem smulG_eq_onCurve (q a : Nat) (h : a < q) : smulG q a = Point.onCurve a := by
  simp [smulG, Nat.mod_eq_of_lt h]

/-- Pointwise: `Q[j] - x0[j]·G = x1[j]·G` over the whole vector. -/
theorem zip_pointSub_x0 (q : Nat) (hq : 0 < q) (xs x0 : List Nat)
    (hxs : ∀ a ∈ xs, a < q) (hx0 : ∀ a ∈ x0, a < q) :
    List.zipWith (pointSub q) (xs.map (smulG q)) (x0.map (smulG q)) =
      (List.zipWith (fun xj x0j => (xj + (q - x0j)) % q) xs x0).map (smulG q) := by
  induction xs generalizing x0 with
  | nil => simp
  | cons a t ih =>
    cases x0 with
    | nil => simp
    | cons b t0 =>
      have ha : a < q := hxs a (List.mem_cons_self _ _)
      have hb : b < q := hx0 b (List.mem_cons_self _ _)
      simp only [List.map_cons, List.zipWith_cons_cons]
      rw [smulG_eq_onCurve q a ha, (pointSub_row q a b hq ha hb).1,
        ih t0 (fun c hc => hxs c (List.mem_cons_of_mem _ hc))
          (fun c hc => hx0 c (List.mem_cons_of_mem _ hc))]

/-- Pointwise: `Q[j] - x1[j]·G = x0[j]·G` over the whole vector (the swap
direction used when the challenge bit is set). -/
theorem zip_pointSub_x1 (q : Nat) (hq : 0 < q) (xs x0 : List Nat)
    (hxs : ∀ a ∈ xs, a < q) (hx0 : ∀ a ∈ x0, a < q) (hlen : xs.length = x0.length) :
    List.zipWith (pointSub q) (xs.map (smulG q))
      ((List.zipWith (fun xj x0j => (xj + (q - x0j)) % q) xs x0).map (smulG q)) =
      x0.map (smulG q) := by
  induction xs generalizing x0 with
  | nil =>
    cases x0 with
    | nil => simp
    | cons b t0 => simp at hlen
  | cons a t ih =>
    cases x0 with
    | nil => simp at hlen
    | cons b t0 =>
      have ha : a < q := hxs a (List.mem_cons_self _ _)
      have hb : b < q := hx0 b (List.mem_cons_self _ _)
      simp only [List.map_cons, List.zipWith_cons_cons]
      rw [smulG_eq_onCurve q a ha, (pointSub_row q a b hq ha hb).2,
        ih t0 (fun c hc => hxs c (List.mem_cons_of_mem _ hc))
          (fun c hc => hx0 c (List.mem_cons_of_mem _ hc)) (by simpa using hlen)]

/-- Pointwise: `(x0[j] + x1[j]) mod q = x[j]` over the whole vector. -/
theorem zip_add_cancel (q : Nat) (hq : 0 < q) (xs x0 : List Nat)
    (hxs : ∀ a ∈ xs, a < q) (hx0 : ∀ a ∈ x0, a < q) (hlen : xs.length = x0.length) :
    List.zipWith (fun a b => (a + b) % q) x0
      (List.zipWith (fun xj x0j => (xj + (q - x0j)) % q) xs x0) = xs := by
  induction xs generalizing x0 with
  | nil =>
    cases x0 with
    | nil => simp
    | cons b t0 => simp at hlen
  | cons a t ih =>
    cases x0 with
    | nil => simp at hlen
    | cons b t0 =>
      have ha : a < q := hxs a (List.mem_cons_self _ _)
      have hb : b < q := hx0 b (List.mem_cons_self _ _)
      simp only [List.zipWith_cons_cons]
      rw [mod_add_sub_cancel q a b ha hb,
        ih t0 (fun c hc => hxs c (List.mem_cons_of_mem _ hc))
          (fun c hc => hx0 c (List.mem_cons_of_mem _ hc)) (by simpa using hlen)]

theorem mapM_ok_of_forall {α : Type} (l : List Nat) (f : Nat → Except Err α)
    (g : Nat → α) (h : ∀ i ∈ l, f i = Except.ok (g i)) :
    l.mapM f = Except.ok (l.map g) := by
  induction l with
  | nil => rfl
  | cons a t ih =>
    rw [List.mapM_cons, h a (List.mem_cons_self _ _),
      ih (fun i hi => h i (List.mem_cons_of_mem _ hi))]
    rfl

theorem xsRed_lt (q : Nat) (hq : 0 < q) (xsIn : List Nat) :
    ∀ a ∈ xsRed q xsIn, a < q := by
  intro a ha
  rcases List.mem_map.1 ha with ⟨b, _, rfl⟩
  exact Nat.mod_lt _ hq

theorem xsRed_length (q : Nat) (xsIn : List Nat) : (xsRed q xsIn).length = xsIn.length := by
  simp [xsRed]

theorem rowBi_x0_length (q ek : Nat) (label : Buf) (xsIn : List Nat) (ent : Nat → Buf)
    (i : Nat) : (rowBi q ek label xsIn ent i).x0.length = xsIn.length := by
  simp [rowBi, encRowB, vectorFromBin_length]

theorem rowBi_x0_lt (q ek : Nat) (hq : 0 < q) (label : Buf) (xsIn : List Nat)
    (ent : Nat → Buf) (i : Nat) : ∀ a ∈ (rowBi q ek label xsIn ent i).x0, a < q := by
  simp only [rowBi, encRowB]
  exact vectorFromBin_mem_lt _ _ _ hq _

theorem rowBi_x1_eq (q ek : Nat) (label : Buf) (xsIn : List Nat) (ent : Nat → Buf)
    (i : Nat) : (rowBi q ek label xsIn ent i).x1 =
      List.zipWith (fun xj x0j => (xj + (q - x0j)) % q) (xsRed q xsIn)
        (rowBi q ek label xsIn ent i).x0 := by
  simp [rowBi, encRowB]

theorem rowBi_x1_length (q ek : Nat) (label : Buf) (xsIn : List Nat) (ent : Nat → Buf)
    (i : Nat) : (rowBi q ek label xsIn ent i).x1.length = xsIn.length := by
  rw [rowBi_x1_eq]
  simp [xsRed_length, rowBi_x0_length, List.length_zipWith]

theorem rowBi_x1_lt (q ek : Nat) (hq : 0 < q) (label : Buf) (xsIn : List Nat)
    (ent : Nat → Buf) (i : Nat) : ∀ a ∈ (rowBi q ek label xsIn ent i).x1, a < q := by
  rw [rowBi_x1_eq]
  intro a ha
  rcases List.mem_iff_get.1 ha with ⟨j, hj⟩
  rw [List.get_zipWith] at hj
  subst hj
  exact Nat.mod_lt _ hq

theorem encryptB_n (q ek : Nat) (label : Buf) (xsIn : List Nat) (ent : Nat → Buf) :
    (encryptB q ek label xsIn ent).n = xsIn.length := rfl

theorem encryptB_L (q ek : Nat) (label : Buf) (xsIn : List Nat) (ent : Nat → Buf) :
    (encryptB q ek label xsIn ent).L = label := rfl

theorem encryptB_Q (q ek : Nat) (label : Buf) (xsIn : List Nat) (ent : Nat → Buf) :
    (encryptB q ek label xsIn ent).Q = qsOf q xsIn := rfl

theorem encryptB_rows_getD (q ek : Nat) (label : Buf) (xsIn : List Nat)
    (ent : Nat → Buf) (i : Nat) (h : i < kappa) :
    (encryptB q ek label xsIn ent).rows.getD i default =
      { xBin := if (encryptB q ek label xsIn ent).b.getD i false
          then (rowBi q ek label xsIn ent i).x1bin else []
        r := if (encryptB q ek label xsIn ent).b.getD i false
          then (rowBi q ek label xsIn ent i).r1
          else (rowBi q ek label xsIn ent i).r01 ++ (rowBi q ek label xsIn ent i).r02
        c := if (encryptB q ek label xsIn ent).b.getD i false
          then (rowBi q ek label xsIn ent i).c0
          else (rowBi q ek label xsIn ent i).c1 } := by
  simp only [encryptB, rowBi, innerBL, qsOf, xsRed]
  rw [getD_map_range _ _ _ h, getD_map_range _ _ _ h]

/-- Honest batch row recomputation: `verify` reproduces exactly the
quadruple that entered the challenge hash. -/
theorem verRowB_encRowB (q ek : Nat) (hq : 0 < q) (label : Buf) (xsIn : List Nat)
    (ent : Nat → Buf) (i : Nat) (bi : Bool) :
    verRowB q ek xsIn.length (innerBL q label xsIn) (qsOf q xsIn) bi
      { xBin := if bi then (rowBi q ek label xsIn ent i).x1bin else []
        r := if bi then (rowBi q ek label xsIn ent i).r1
          else (rowBi q ek label xsIn ent i).r01 ++ (rowBi q ek label xsIn ent i).r02
        c := if bi then (rowBi q ek label xsIn ent i).c0
          else (rowBi q ek label xsIn ent i).c1 } =
    Except.ok ((rowBi q ek label xsIn ent i).c0, (rowBi q ek label xsIn ent i).c1,
      (rowBi q ek label xsIn ent i).X0, (rowBi q ek label xsIn ent i).X1) := by
  have hr01 : (rowBi q ek label xsIn ent i).r01 = to16 (ent (3 * i)) := rfl
  have hr02 : (rowBi q ek label xsIn ent i).r02 = to16 (ent (3 * i + 1)) := rfl
  have hr1len : (rowBi q ek label xsIn ent i).r1.length = 16 := to16_length _
  have hr01len : (rowBi q ek label xsIn ent i).r01.length = 16 := to16_length _
  have hr02len : (rowBi q ek label xsIn ent i).r02.length = 16 := to16_length _
  cases bi with
  | false =>
    have htake : ((rowBi q ek label xsIn ent i).r01 ++
        (rowBi q ek label xsIn ent i).r02).take 16 = (rowBi q ek label xsIn ent i).r01 :=
      take_append_len _ _ 16 hr01len
    have hdrop : ((rowBi q ek label xsIn ent i).r01 ++
        (rowBi q ek label xsIn ent i).r02).drop 16 = (rowBi q ek label xsIn ent i).r02 :=
      drop_append_len _ _ 16 hr01len
    simp only [verRowB, Bool.false_eq_true, if_false]
    rw [if_neg (by simp [List.length_append, hr01len, hr02len])]
    rw [htake, hdrop]
    rfl
  | true =>
    have hxpow : ∀ a ∈ (rowBi q ek label xsIn ent i).x1, a < 256 ^ csize q :=
      fun a ha => lt_trans (rowBi_x1_lt q ek hq label xsIn ent i a ha) (q_lt_pow_csize q)
    have hxlt : ∀ a ∈ (rowBi q ek label xsIn ent i).x1, a < q :=
      rowBi_x1_lt q ek hq label xsIn ent i
    have hx1bin : (rowBi q ek label xsIn ent i).x1bin =
        vectorToBin (csize q) (rowBi q ek label xsIn ent i).x1 := rfl
    have hxi : vectorFromBin q (csize q) xsIn.length
        ((rowBi q ek label xsIn ent i).x1bin) = (rowBi q ek label xsIn ent i).x1 := by
      rw [hx1bin, ← List.append_nil (vectorToBin (csize q) (rowBi q ek label xsIn ent i).x1),
        ← rowBi_x1_length q ek label xsIn ent i]
      exact vectorFromBin_vectorToBin q (csize q) _ hxpow hxlt []
    have hX1 : List.zipWith (pointSub q) (qsOf q xsIn)
        ((rowBi q ek label xsIn ent i).x1.map (smulG q)) =
        (rowBi q ek label xsIn ent i).x0.map (smulG q) := by
      rw [rowBi_x1_eq, qsOf]
      exact zip_pointSub_x1 q hq (xsRed q xsIn) _ (xsRed_lt q hq xsIn)
        (rowBi_x0_lt q ek hq label xsIn ent i)
        (by rw [xsRed_length, rowBi_x0_length])
    have hX0 : (rowBi q ek label xsIn ent i).x1.map (smulG q) =
        List.zipWith (pointSub q) (qsOf q xsIn)
          ((rowBi q ek label xsIn ent i).x0.map (smulG q)) := by
      rw [rowBi_x1_eq, qsOf]
      exact (zip_pointSub_x0 q hq (xsRed q xsIn) _ (xsRed_lt q hq xsIn)
        (rowBi_x0_lt q ek hq label xsIn ent i)).symm
    simp only [verRowB, eq_self_iff_true, if_true]
    rw [if_neg (by simp [hr1len]), hxi, hX1]
    rw [← hx1bin]
    have hX0f : (rowBi q ek label xsIn ent i).X0 =
        (rowBi q ek label xsIn ent i).x0.map (smulG q) := rfl
    have hX1f : (rowBi q ek label xsIn ent i).X1 =
        List.zipWith (pointSub q) (qsOf q xsIn)
          ((rowBi q ek label xsIn ent i).x0.map (smulG q)) := rfl
    rw [hX0f, hX1f, ← hX0]
    rfl

/-- Decoding the stored fixed-width blob gives back the kept scalar
vector. -/
theorem rowBi_x1bin_decode (q ek : Nat) (hq : 0 < q) (label : Buf) (xsIn : List Nat)
    (ent : Nat → Buf) (i : Nat) :
    vectorFromBin q (csize q) xsIn.length ((rowBi q ek label xsIn ent i).x1bin) =
      (rowBi q ek label xsIn ent i).x1 := by
  have hxpow : ∀ a ∈ (rowBi q ek label xsIn ent i).x1, a < 256 ^ csize q :=
    fun a ha => lt_trans (rowBi_x1_lt q ek hq label xsIn ent i a ha) (q_lt_pow_csize q)
  have hxlt : ∀ a ∈ (rowBi q ek label xsIn ent i).x1, a < q :=
    rowBi_x1_lt q ek hq label xsIn ent i
  have h2 := vectorFromBin_vectorToBin q (csize q) (rowBi q ek label xsIn ent i).x1
    hxpow hxlt []
  rw [List.append_nil, rowBi_x1_length] at h2
  exact h2

/-- All rows of an honest batch instance recompute to the original
quadruples. -/
theorem recomputeRowsB_encryptB (q ek : Nat) (hq : 0 < q) (label : Buf)
    (xsIn : List Nat) (ent : Nat → Buf) :
    recomputeRowsB q (encryptB q ek label xsIn ent) ek
        (encryptB q ek label xsIn ent).Q label =
      Except.ok ((List.range kappa).map fun i =>
        ((rowBi q ek label xsIn ent i).c0, (rowBi q ek label xsIn ent i).c1,
         (rowBi q ek label xsIn ent i).X0, (rowBi q ek label xsIn ent i).X1)) := by
  rw [recomputeRowsB]
  apply mapM_ok_of_forall
  intro i hi
  have h := List.mem_range.1 hi
  rw [encryptB_rows_getD q ek label xsIn ent i h, encryptB_n, encryptB_Q]
  exact verRowB_encRowB q ek hq label xsIn ent i _

theorem encryptB_b_eq (q ek : Nat) (label : Buf) (xsIn : List Nat) (ent : Nat → Buf) :
    (encryptB q ek label xsIn ent).b = hashBits (challengeInputB (qsOf q xsIn) label
      ((List.range kappa).map fun i => (rowBi q ek label xsIn ent i).c0)
      ((List.range kappa).map fun i => (rowBi q ek label xsIn ent i).c1)
      ((List.range kappa).map fun i => (rowBi q ek label xsIn ent i).X0)
      ((List.range kappa).map fun i => (rowBi q ek label xsIn ent i).X1)) := by
  conv_lhs => rw [encryptB]
  simp only [List.map_map, rowBi, innerBL, qsOf, xsRed]
  rfl

/-- `ec_pve_batch_t::verify` succeeds on an honest instance queried with
its own commitment vector and label. -/
theorem verifyB_encryptB (q ek : Nat) (hq : 0 < q) (label : Buf) (xsIn : List Nat)
    (ent : Nat → Buf) :
    verifyB q (encryptB q ek label xsIn ent) ek (encryptB q ek label xsIn ent).Q label
      = Except.ok () := by
  have hlen : (encryptB q ek label xsIn ent).Q.length = (encryptB q ek label xsIn ent).n := by
    rw [encryptB_Q, encryptB_n, qsOf, List.length_map, xsRed_length]
  have hall : (encryptB q ek label xsIn ent).Q.all curveCheckB = true := by
    rw [encryptB_Q, qsOf, List.all_eq_true]
    intro P hP
    rcases List.mem_map.1 hP with ⟨a, _, rfl⟩
    rfl
  rw [verifyB, if_neg (by rw [hlen]; exact fun hcon => hcon rfl), if_neg (by rw [hall]; simp),
    if_neg (by simp), if_neg (by rw [encryptB_L]; simp),
    recomputeRowsB_encryptB q ek hq label xsIn ent]
  simp only [List.map_map]
  rw [encryptB_Q]
  rw [if_pos]
  rw [encryptB_b_eq q ek label xsIn ent]
  rfl

/-- On an honest batch instance every row opens under the matching private
key and the instance's own label. -/
theorem openB_encryptB (q ek : Nat) (label : Buf) (xsIn : List Nat) (ent : Nat → Buf)
    (i : Nat) (h : i < kappa) :
    basePkeDecrypt ek (pveLabelWithPoint label (encPointsH (encryptB q ek label xsIn ent).Q))
        ((encryptB q ek label xsIn ent).rows.getD i default).c =
      some (if (encryptB q ek label xsIn ent).b.getD i false
        then (rowBi q ek label xsIn ent i).r01
        else (rowBi q ek label xsIn ent i).x1bin) := by
  rw [encryptB_rows_getD q ek label xsIn ent i h, encryptB_Q]
  cases hb : (encryptB q ek label xsIn ent).b.getD i false with
  | false => simp [rowBi, encRowB, basePkeDecrypt, basePkeEncrypt, innerBL]
  | true => simp [rowBi, encRowB, basePkeDecrypt, basePkeEncrypt, innerBL]

/-- Every row of an honest batch instance reconstructs the whole reduced
scalar vector. -/
theorem restoreB_encryptB (q ek : Nat) (hq : 0 < q) (label : Buf) (xsIn : List Nat)
    (ent : Nat → Buf) (i : Nat) (h : i < kappa) :
    restoreB q (encryptB q ek label xsIn ent) i
      (if (encryptB q ek label xsIn ent).b.getD i false
        then (rowBi q ek label xsIn ent i).r01
        else (rowBi q ek label xsIn ent i).x1bin) = Except.ok (xsRed q xsIn) := by
  have hr01len : (rowBi q ek label xsIn ent i).r01.length = 16 := to16_length _
  have hr02len : (rowBi q ek label xsIn ent i).r02.length = 16 := to16_length _
  have hx0eq : vectorFromBin q (csize q + statBytes) xsIn.length
      (drbgBytes (rowBi q ek label xsIn ent i).r01 0
        (xsIn.length * (csize q + statBytes))) = (rowBi q ek label xsIn ent i).x0 := rfl
  have hsum : List.zipWith (fun a b => (a + b) % q) (rowBi q ek label xsIn ent i).x0
      (rowBi q ek label xsIn ent i).x1 = xsRed q xsIn := by
    rw [rowBi_x1_eq]
    exact zip_add_cancel q hq (xsRed q xsIn) _ (xsRed_lt q hq xsIn)
      (rowBi_x0_lt q ek hq label xsIn ent i)
      (by rw [xsRed_length, rowBi_x0_length])
  have hQeq : (encryptB q ek label xsIn ent).Q = (xsRed q xsIn).map (smulG q) := by
    rw [encryptB_Q, qsOf]
  rw [restoreB, if_neg (by omega : ¬ i > kappa)]
  rw [encryptB_rows_getD q ek label xsIn ent i h, encryptB_n]
  cases hb : (encryptB q ek label xsIn ent).b.getD i false with
  | false =>
    simp only [Bool.false_eq_true, if_false]
    rw [if_neg (by simp [List.length_append, hr01len, hr02len])]
    simp only []
    rw [take_append_len _ _ 16 hr01len]
    rw [hx0eq, rowBi_x1bin_decode q ek hq label xsIn ent i, hsum]
    rw [if_pos hQeq]
  | true =>
    simp only [eq_self_iff_true, if_true]
    rw [hx0eq, rowBi_x1bin_decode q ek hq label xsIn ent i, hsum]
    rw [if_pos hQeq]

/-- The batch row loop returns the first successful reconstruction. -/
theorem decryptLoopB_first_ok (q dk : Nat) (inner : Buf) (inst : BatchInst) (i : Nat)
    (rest : List Nat) (buf : Buf) (v : List Nat)
    (hopen : basePkeDecrypt dk inner (inst.rows.getD i default).c = some buf)
    (hres : restoreB q inst i buf = Except.ok v) :
    decryptLoopB q dk inner inst (i :: rest) = Except.ok v := by
  rw [decryptLoopB, hopen]
  simp only []
  rw [hres]

/-- Full decryption of an honest batch instance with the matching private
key returns the committed (reduced) scalar vector, verify pass enabled. -/
theorem decryptB_encryptB (q ek : Nat) (hq : 0 < q) (label : Buf) (xsIn : List Nat)
    (ent : Nat → Buf) :
    decryptB q ek ek label (encryptB q ek label xsIn ent) false
      = Except.ok (xsRed q xsIn) := by
  have h0 : (0 : Nat) < kappa := by decide
  rw [decryptB]
  rw [if_neg (by simp : ¬ (false = true))]
  rw [verifyB_encryptB q ek hq label xsIn ent]
  rw [if_neg (by rw [encryptB_L]; simp)]
  have hrange : List.range kappa = 0 :: List.map Nat.succ (List.range 127) := by
    rw [show kappa = 127 + 1 from rfl, List.range_succ_eq_map]
  rw [hrange]
  exact decryptLoopB_first_ok q ek _ _ 0 _ _ _ (openB_encryptB q ek label xsIn ent 0 h0)
    (restoreB_encryptB q ek hq label xsIn ent 0 h0)

/-! ### Characterization of the decrypt row loops -/

theorem ite_some_elim {α : Type} {c : Prop} [Decidable c] {x v : α}
    (h : (if c then some x else none) = some v) : c ∧ x = v := by
  split at h
  · rename_i hc
    cases h
    exact ⟨hc, rfl⟩
  · cases h

theorem ite_ok_elim {α : Type} {c : Prop} [Decidable c] {x v : α} {e : Err}
    (h : (if c then Except.ok x else Except.error e) = Except.ok v) : c ∧ x = v := by
  split at h
  · rename_i hc
    cases h
    exact ⟨hc, rfl⟩
  · cases h

theorem zipWith_mod_lt (q : Nat) (hq : 0 < q) (u w : List Nat) :
    ∀ v ∈ List.zipWith (fun a b => (a + b) % q) u w, v < q := by
  intro v hv
  rcases List.mem_iff_get.1 hv with ⟨j, hj⟩
  rw [List.get_zipWith] at hj
  exact hj ▸ Nat.mod_lt _ hq

/-- A successful restore yields a fully reduced scalar matching the stored
commitment. -/
theorem restoreS_ok_shape (q : Nat) (hq : 0 < q) (inst : SingleInst) (i : Nat)
    (buf : Buf) (v : Nat) (h : restoreS q inst i buf = some v) :
    v < q ∧ smulG q v = inst.Q := by
  simp only [restoreS] at h
  obtain ⟨hcond, hx⟩ := ite_some_elim h
  subst hx
  exact ⟨Nat.mod_lt _ hq, hcond⟩

/-- A successful single-value row loop comes from a first reconstructing
row: the rows before it all opened and failed to reconstruct. -/
theorem decryptLoopS_ok_iff (q dk : Nat) (inner : Buf) (inst : SingleInst)
    (l : List Nat) (v : Nat) :
    decryptLoopS q dk inner inst l = Except.ok v ↔
      ∃ l1 i l2, l = l1 ++ i :: l2 ∧
        (∀ j ∈ l1, ∃ buf, basePkeDecrypt dk inner (inst.c.getD j default) = some buf ∧
          restoreS q inst j buf = none) ∧
        ∃ buf, basePkeDecrypt dk inner (inst.c.getD i default) = some buf ∧
          restoreS q inst i buf = some v := by
  induction l with
  | nil =>
    simp only [decryptLoopS]
    constructor
    · intro h; cases h
    · rintro ⟨l1, i, l2, habs, -, -⟩
      exact absurd habs (List.append_ne_nil_of_right_ne_nil l1 (List.cons_ne_nil i l2)).symm
  | cons a t ih =>
    rw [decryptLoopS]
    cases ho : basePkeDecrypt dk inner (inst.c.getD a default) with
    | none =>
      simp only []
      constructor
      · intro h; cases h
      · rintro ⟨l1, i, l2, heq, hpre, buf, hbuf, -⟩
        cases l1 with
        | nil =>
          cases heq
          rw [ho] at hbuf; cases hbuf
        | cons b t1 =>
          rw [List.cons_append] at heq
          cases heq
          rcases hpre a (List.mem_cons_self _ _) with ⟨buf2, hb2, -⟩
          rw [ho] at hb2; cases hb2
    | some buf0 =>
      simp only []
      cases hr : restoreS q inst a buf0 with
      | some w =>
        simp only []
        constructor
        · intro h
          cases h
          exact ⟨[], a, t, rfl, by simp, buf0, ho, hr⟩
        · rintro ⟨l1, i, l2, heq, hpre, buf, hbuf, hres⟩
          cases l1 with
          | nil =>
            cases heq
            rw [ho] at hbuf; cases hbuf
            rw [hr] at hres; cases hres
            rfl
          | cons b t1 =>
            rw [List.cons_append] at heq
            cases heq
            rcases hpre a (List.mem_cons_self _ _) with ⟨buf2, hb2, hr2⟩
            rw [ho] at hb2; cases hb2
            rw [hr] at hr2; cases hr2
      | none =>
        simp only []
        rw [ih]
        constructor
        · rintro ⟨l1, i, l2, heq, hpre, hrow⟩
          refine ⟨a :: l1, i, l2, by rw [heq, List.cons_append], ?_, hrow⟩
          intro j hj
          rcases List.mem_cons.1 hj with hj | hj
          · subst hj; exact ⟨buf0, ho, hr⟩
          · exact hpre j hj
        · rintro ⟨l1, i, l2, heq, hpre, hrow⟩
          cases l1 with
          | nil =>
            cases heq
            rcases hrow with ⟨buf, hbuf, hres⟩
            rw [ho] at hbuf; cases hbuf
            rw [hr] at hres; cases hres
          | cons b t1 =>
            rw [List.cons_append] at heq
            cases heq
            exact ⟨t1, i, l2, rfl, fun j hj => hpre j (List.mem_cons_of_mem _ hj), hrow⟩

/-- The single-value row loop ends in the reconstruction error exactly
when every row in the list opens but fails to reconstruct. -/
theorem decryptLoopS_reconstructFailed_iff (q dk : Nat) (inner : Buf)
    (inst : SingleInst) (l : List Nat) :
    decryptLoopS q dk inner inst l = Except.error Err.reconstructFailed ↔
      ∀ i ∈ l, ∃ buf, basePkeDecrypt dk inner (inst.c.getD i default) = some buf ∧
        restoreS q inst i buf = none := by
  induction l with
  | nil => simp [decryptLoopS]
  | cons a t ih =>
    rw [decryptLoopS]
    cases ho : basePkeDecrypt dk inner (inst.c.getD a default) with
    | none =>
      simp only []
      constructor
      · intro h; cases h
      · intro h
        rcases h a (List.mem_cons_self _ _) with ⟨buf, hbuf, -⟩
        rw [ho] at hbuf; cases hbuf
    | some buf0 =>
      simp only []
      cases hr : restoreS q inst a buf0 with
      | some w =>
        simp only []
        constructor
        · intro h; cases h
        · intro h
          rcases h a (List.mem_cons_self _ _) with ⟨buf, hbuf, hres⟩
          rw [ho] at hbuf; cases hbuf
          rw [hr] at hres; cases hres
      | none =>
        simp only []
        rw [ih]
        constructor
        · intro h i hi
          rcases List.mem_cons.1 hi with hi | hi
          · subst hi; exact ⟨buf0, ho, hr⟩
          · exact h i hi
        · intro h i hi
          exact h i (List.mem_cons_of_mem _ hi)

/-- The single-value row loop aborts with the base-decryption error
exactly when some row fails to open after a prefix of rows that all opened
and failed to reconstruct: opening failures are not retried. -/
theorem decryptLoopS_decryptFailed_iff (q dk : Nat) (inner : Buf)
    (inst : SingleInst) (l : List Nat) :
    decryptLoopS q dk inner inst l = Except.error Err.decryptFailed ↔
      ∃ l1 i l2, l = l1 ++ i :: l2 ∧
        (∀ j ∈ l1, ∃ buf, basePkeDecrypt dk inner (inst.c.getD j default) = some buf ∧
          restoreS q inst j buf = none) ∧
        basePkeDecrypt dk inner (inst.c.getD i default) = none := by
  induction l with
  | nil =>
    simp only [decryptLoopS]
    constructor
    · intro h; cases h
    · rintro ⟨l1, i, l2, habs, -, -⟩
      exact absurd habs (List.append_ne_nil_of_right_ne_nil l1 (List.cons_ne_nil i l2)).symm
  | cons a t ih =>
    rw [decryptLoopS]
    cases ho : basePkeDecrypt dk inner (inst.c.getD a default) with
    | none =>
      simp only []
      constructor
      · intro _; exact ⟨[], a, t, rfl, by simp, ho⟩
      · intro _; trivial
    | some buf0 =>
      simp only []
      cases hr : restoreS q inst a buf0 with
      | some w =>
        simp only []
        constructor
        · intro h; cases h
        · rintro ⟨l1, i, l2, heq, hpre, hfail⟩
          cases l1 with
          | nil =>
            cases heq
            rw [ho] at hfail; cases hfail
          | cons b t1 =>
            rw [List.cons_append] at heq
            cases heq
            rcases hpre a (List.mem_cons_self _ _) with ⟨buf2, hb2, hr2⟩
            rw [ho] at hb2; cases hb2
            rw [hr] at hr2; cases hr2
      | none =>
        simp only []
        rw [ih]
        constructor
        · rintro ⟨l1, i, l2, heq, hpre, hfail⟩
          refine ⟨a :: l1, i, l2, by rw [heq, List.cons_append], ?_, hfail⟩
          intro j hj
          rcases List.mem_cons.1 hj with hj | hj
          · subst hj; exact ⟨buf0, ho, hr⟩
          · exact hpre j hj
        · rintro ⟨l1, i, l2, heq, hpre, hfail⟩
          cases l1 with
          | nil =>
            cases heq
            rw [ho] at hfail; cases hfail
          | cons b t1 =>
            rw [List.cons_append] at heq
            cases heq
            exact ⟨t1, i, l2, rfl, fun j hj => hpre j (List.mem_cons_of_mem _ hj), hfail⟩

/-- A successful batch restore yields fully reduced scalars whose
commitments are exactly the stored commitment vector. -/
theorem restoreB_ok_shape (q : Nat) (hq : 0 < q) (inst : BatchInst) (i : Nat)
    (buf : Buf) (vs : List Nat) (h : restoreB q inst i buf = Except.ok vs) :
    (∀ v ∈ vs, v < q) ∧ vs.map (smulG q) = inst.Q := by
  simp only [restoreB] at h
  split at h
  · cases h
  · split at h
    · cases h
    · obtain ⟨hcond, hx⟩ := ite_ok_elim h
      subst hx
      exact ⟨zipWith_mod_lt q hq _ _, hcond.symm⟩

/-- A successful batch row loop comes from some row that opened and
reconstructed. -/
theorem decryptLoopB_ok_elim (q dk : Nat) (inner : Buf) (inst : BatchInst)
    (l : List Nat) (vs : List Nat)
    (h : decryptLoopB q dk inner inst l = Except.ok vs) :
    ∃ i ∈ l, ∃ buf, basePkeDecrypt dk inner (inst.rows.getD i default).c = some buf ∧
      restoreB q inst i buf = Except.ok vs := by
  induction l with
  | nil => cases h
  | cons a t ih =>
    rw [decryptLoopB] at h
    cases ho : basePkeDecrypt dk inner (inst.rows.getD a default).c with
    | none => rw [ho] at h; cases h
    | some buf0 =>
      rw [ho] at h
      simp only [] at h
      cases hr : restoreB q inst a buf0 with
      | ok ws =>
        rw [hr] at h
        cases h
        exact ⟨a, List.mem_cons_self _ _, buf0, ho, hr⟩
      | error e =>
        rw [hr] at h
        rcases ih h with ⟨i, hi, buf, hbuf, hres⟩
        exact ⟨i, List.mem_cons_of_mem _ hi, buf, hbuf, hres⟩

/-- The batch row loop ends in the reconstruction error exactly when
every row in the list opens but fails to reconstruct. -/
theorem decryptLoopB_reconstructFailed_iff (q dk : Nat) (inner : Buf)
    (inst : BatchInst) (l : List Nat) :
    decryptLoopB q dk inner inst l = Except.error Err.reconstructFailed ↔
      ∀ i ∈ l, ∃ buf, basePkeDecrypt dk inner (inst.rows.getD i default).c = some buf ∧
        ∃ e, restoreB q inst i buf = Except.error e := by
  induction l with
  | nil => simp [decryptLoopB]
  | cons a t ih =>
    rw [decryptLoopB]
    cases ho : basePkeDecrypt dk inner (inst.rows.getD a default).c with
    | none =>
      simp only []
      constructor
      · intro h; cases h
      · intro h
        rcases h a (List.mem_cons_self _ _) with ⟨buf, hbuf, -⟩
        rw [ho] at hbuf; cases hbuf
    | some buf0 =>
      simp only []
      cases hr : restoreB q inst a buf0 with
      | ok w =>
        simp only []
        constructor
        · intro h; cases h
        · intro h
          rcases h a (List.mem_cons_self _ _) with ⟨buf, hbuf, e, hres⟩
          rw [ho] at hbuf; cases hbuf
          rw [hr] at hres; cases hres
      | error e0 =>
        simp only []
        rw [ih]
        constructor
        · intro h i hi
          rcases List.mem_cons.1 hi with hi | hi
          · subst hi; exact ⟨buf0, ho, e0, hr⟩
          · exact h i hi
        · intro h i hi
          exact h i (List.mem_cons_of_mem _ hi)

/-- The batch row loop aborts with the base-decryption error exactly when
some row fails to open after a prefix of rows that all opened and failed
to reconstruct. -/
theorem decryptLoopB_decryptFailed_iff (q dk : Nat) (inner : Buf)
    (inst : BatchInst) (l : List Nat) :
    decryptLoopB q dk inner inst l = Except.error Err.decryptFailed ↔
      ∃ l1 i l2, l = l1 ++ i :: l2 ∧
        (∀ j ∈ l1, ∃ buf, basePkeDecrypt dk inner (inst.rows.getD j default).c = some buf ∧
          ∃ e, restoreB q inst j buf = Except.error e) ∧
        basePkeDecrypt dk inner (inst.rows.getD i default).c = none := by
  induction l with
  | nil =>
    simp only [decryptLoopB]
    constructor
    · intro h; cases h
    · rintro ⟨l1, i, l2, habs, -, -⟩
      exact absurd habs (List.append_ne_nil_of_right_ne_nil l1 (List.cons_ne_nil i l2)).symm
  | cons a t ih =>
    rw [decryptLoopB]
    cases ho : basePkeDecrypt dk inner (inst.rows.getD a default).c with
    | none =>
      simp only []
      constructor
      · intro _; exact ⟨[], a, t, rfl, by simp, ho⟩
      · intro _; trivial
    | some buf0 =>
      simp only []
      cases hr : restoreB q inst a buf0 with
      | ok w =>
        simp only []
        constructor
        · intro h; cases h
        · rintro ⟨l1, i, l2, heq, hpre, hfail⟩
          cases l1 with
          | nil =>
            cases heq
            rw [ho] at hfail; cases hfail
          | cons b t1 =>
            rw [List.cons_append] at heq
            cases heq
            rcases hpre a (List.mem_cons_self _ _) with ⟨buf2, hb2, e, hr2⟩
            rw [ho] at hb2; cases hb2
            rw [hr] at hr2; cases hr2
      | error e0 =>
        simp only []
        rw [ih]
        constructor
        · rintro ⟨l1, i, l2, heq, hpre, hfail⟩
          refine ⟨a :: l1, i, l2, by rw [heq, List.cons_append], ?_, hfail⟩
          intro j hj
          rcases List.mem_cons.1 hj with hj | hj
          · subst hj; exact ⟨buf0, ho, e0, hr⟩
          · exact hpre j hj
        · rintro ⟨l1, i, l2, heq, hpre, hfail⟩
          cases l1 with
          | nil =>
            cases heq
            rw [ho] at hfail; cases hfail
          | cons b t1 =>
            rw [List.cons_append] at heq
            cases heq
            exact ⟨t1, i, l2, rfl, fun j hj => hpre j (List.mem_cons_of_mem _ hj), hfail⟩

/-- With verification skipped, `decryptS` is its row loop. -/
theorem decryptS_skip_eq_loop (q dk ek : Nat) (label : Buf) (inst : SingleInst) :
    decryptS q dk ek label inst true =
      decryptLoopS q dk (pveLabelWithPoint label (encPointH inst.Q)) inst
        (List.range kappa) := rfl

/-- A successful `decryptS` comes from its row loop. -/
theorem decryptS_ok_elim (q dk ek : Nat) (label : Buf) (inst : SingleInst) (sv : Bool)
    (v : Nat) (h : decryptS q dk ek label inst sv = Except.ok v) :
    decryptLoopS q dk (pveLabelWithPoint label (encPointH inst.Q)) inst
      (List.range kappa) = Except.ok v := by
  rw [decryptS] at h
  cases hv : (if sv then Except.ok () else verifyS q inst ek inst.Q label) with
  | error e => rw [hv] at h; cases h
  | ok u => rw [hv] at h; cases u; exact h

/-- A successful `decryptB` comes from its row loop. -/
theorem decryptB_ok_elim (q dk ek : Nat) (label : Buf) (inst : BatchInst) (sv : Bool)
    (vs : List Nat) (h : decryptB q dk ek label inst sv = Except.ok vs) :
    ∃ i ∈ List.range kappa, ∃ buf,
      basePkeDecrypt dk (pveLabelWithPoint label (encPointsH inst.Q))
        (inst.rows.getD i default).c = some buf ∧
      restoreB q inst i buf = Except.ok vs := by
  rw [decryptB] at h
  cases hv : (if sv then Except.ok () else verifyB q inst ek inst.Q label) with
  | error e => rw [hv] at h; cases h
  | ok u =>
    rw [hv] at h
    cases u
    by_cases hl : label ≠ inst.L
    · rw [if_pos hl] at h; cases h
    · rw [if_neg hl] at h
      exact decryptLoopB_ok_elim q dk _ inst _ vs h

/-! ### Serialization round trips -/

theorem decBuf_encBuf (b rest : Buf) : decBuf (encBuf b ++ rest) = some (b, rest) := by
  show decBuf (b.length :: (b ++ rest)) = some (b, rest)
  rw [decBuf, if_pos (by rw [List.length_append]; omega)]
  rw [take_append_len _ _ _ rfl, drop_append_len _ _ _ rfl]

theorem decFixed_raw (k : Nat) (raw rest : Buf) (h : raw.length = k) :
    decFixed k (raw ++ rest) = some (raw, rest) := by
  rw [decFixed, if_pos (by rw [List.length_append]; omega)]
  rw [take_append_len _ _ _ h, drop_append_len _ _ _ h]

theorem decNat_encNat (x : Nat) (rest : Buf) : decNat (encNat x ++ rest) = some (x, rest) := by
  rw [encNat, decNat, decBuf_encBuf]
  simp [bytesToNatLE_natToBytesLE]

theorem decPointSer_enc (P : Point) (rest : Buf) :
    decPointSer (encPointSer P ++ rest) = some (P, rest) := by
  cases P with
  | onCurve e =>
    show decPointSer (0 :: (encNat e ++ rest)) = _
    rw [decPointSer, decNat_encNat]
    rfl
  | offCurve j =>
    show decPointSer (1 :: (encNat j ++ rest)) = _
    rw [decPointSer, decNat_encNat]
    rfl

theorem decCtSer_enc (ct : BaseCt) (rest : Buf) :
    decCtSer (encCtSer ct ++ rest) = some (ct, rest) := by
  rw [encCtSer, decCtSer]
  rw [List.append_assoc, List.append_assoc, List.append_assoc]
  rw [decNat_encNat]
  rw [Option.some_bind]
  rw [decBuf_encBuf]
  rw [Option.some_bind]
  rw [decBuf_encBuf]
  rw [Option.some_bind]
  rw [decBuf_encBuf]
  rfl

theorem decBool_byte (v : Bool) : decide ((if v then (1 : Nat) else 0) = 1) = v := by
  cases v <;> rfl

theorem decBitsSer_enc (b : List Bool) (h : b.length = kappa) (rest : Buf) :
    decBitsSer (encBitsSer b ++ rest) = some (b, rest) := by
  rw [decBitsSer, decFixed_raw kappa (encBitsSer b) rest (by simp [encBitsSer, h])]
  rw [Option.map_some']
  show some ((encBitsSer b).map fun v => decide (v = 1), rest) = some (b, rest)
  rw [encBitsSer, List.map_map]
  have hmap : List.map ((fun v : Nat => decide (v = 1)) ∘ fun v : Bool =>
      if v then (1 : Nat) else 0) b = b := by
    calc List.map ((fun v : Nat => decide (v = 1)) ∘ fun v : Bool =>
        if v then (1 : Nat) else 0) b = b.map id :=
        List.map_congr_left fun v _ => by cases v <;> rfl
    _ = b := List.map_id b
  rw [hmap]

theorem deserRowsS_serRowsS (k : Nat) (xs : List Nat) (rs : List Buf) (cs : List BaseCt)
    (hx : xs.length = k) (hr : rs.length = k) (hc : cs.length = k)
    (h16 : ∀ rr ∈ rs, rr.length = 16) (rest : Buf) :
    deserRowsS k (serRowsS xs rs cs ++ rest) = some ((xs, rs, cs), rest) := by
  induction k generalizing xs rs cs rest with
  | zero =>
    rw [List.length_eq_zero] at hx hr hc
    subst hx; subst hr; subst hc
    rfl
  | succ k ih =>
    cases xs with
    | nil => simp at hx
    | cons x xs =>
      cases rs with
      | nil => simp at hr
      | cons rr rs =>
        cases cs with
        | nil => simp at hc
        | cons ct cs =>
          rw [serRowsS, deserRowsS]
          rw [List.append_assoc, List.append_assoc, List.append_assoc]
          rw [decNat_encNat]
          rw [Option.some_bind]
          rw [decFixed_raw 16 rr _ (h16 rr (List.mem_cons_self _ _))]
          rw [Option.some_bind]
          rw [decCtSer_enc]
          rw [Option.some_bind]
          rw [ih xs rs cs (by simpa using hx) (by simpa using hr) (by simpa using hc)
            (fun r2 h2 => h16 r2 (List.mem_cons_of_mem _ h2)) rest]
          rfl

theorem deserRowsB_serRowsB (k : Nat) (rows : List BatchRow) (hk : rows.length = k)
    (rest : Buf) : deserRowsB k (serRowsB rows ++ rest) = some (rows, rest) := by
  induction k generalizing rows rest with
  | zero =>
    rw [List.length_eq_zero] at hk
    subst hk
    rfl
  | succ k ih =>
    cases rows with
    | nil => simp at hk
    | cons row rows =>
      rw [serRowsB, deserRowsB]
      rw [List.append_assoc, List.append_assoc, List.append_assoc]
      rw [decBuf_encBuf]
      rw [Option.some_bind]
      rw [decBuf_encBuf]
      rw [Option.some_bind]
      rw [decCtSer_enc]
      rw [Option.some_bind]
      rw [ih rows (by simpa using hk) rest]
      rfl

theorem decListCount_enc (l : List Point) (rest : Buf) :
    decListCount decPointSer l.length (l.flatMap encPointSer ++ rest) = some (l, rest) := by
  induction l generalizing rest with
  | nil => rfl
  | cons P t ih =>
    rw [List.length_cons, List.flatMap_cons, decListCount, List.append_assoc,
      decPointSer_enc]
    rw [Option.some_bind]
    rw [ih rest]
    rfl

theorem decListSer_enc (l : List Point) (rest : Buf) :
    decListSer decPointSer (encListSer encPointSer l ++ rest) = some (l, rest) := by
  rw [encListSer, decListSer, List.append_assoc, decNat_encNat]
  rw [Option.some_bind]
  exact decListCount_enc l rest

theorem deserS_serS (inst : SingleInst) (h : wfS inst) (rest : Buf) :
    deserS (serS inst ++ rest) = some (inst, rest) := by
  obtain ⟨hb, hx, hr, hc, h16⟩ := h
  rw [serS, deserS]
  rw [List.append_assoc, List.append_assoc, List.append_assoc]
  rw [decPointSer_enc]
  rw [Option.some_bind]
  rw [decBuf_encBuf]
  rw [Option.some_bind]
  rw [decBitsSer_enc inst.b hb]
  rw [Option.some_bind]
  rw [deserRowsS_serRowsS kappa inst.xRows inst.r inst.c hx hr hc h16 rest]
  rfl

theorem deserB_serB (inst : BatchInst) (h : wfB inst) (s : Buf)
    (hser : serB inst = some s) (rest : Buf) :
    deserB inst.n (s ++ rest) = some (inst, rest) := by
  obtain ⟨hb, hrows, hQ⟩ := h
  rw [serB, if_neg (by omega)] at hser
  cases hser
  rw [deserB]
  rw [List.append_assoc, List.append_assoc, List.append_assoc]
  rw [decListSer_enc]
  rw [Option.some_bind]
  rw [decBuf_encBuf]
  rw [Option.some_bind]
  rw [decBitsSer_enc inst.b hb]
  rw [Option.some_bind]
  rw [deserRowsB_serRowsB kappa inst.rows hrows rest]
  rfl

theorem deserKemCt_ser (ct : KemAeadCt) (h : ct.iv.length = ivSize) (rest : Buf) :
    deserKemCt (serKemCt ct ++ rest) = some (ct, rest) := by
  rw [serKemCt, deserKemCt]
  rw [List.append_assoc, List.append_assoc]
  rw [decBuf_encBuf]
  rw [Option.some_bind]
  rw [decFixed_raw ivSize ct.iv _ h]
  rw [Option.some_bind]
  rw [decBuf_encBuf]
  rfl

/-! ### The claims -/

/-- C1. Single-value PVE round trip: for every supported curve (every
group order `q`), every scalar `x`, every label, and every honest key pair
(the handles of one key, `ek = dk`), decrypting the instance produced by
`ec_pve_t::encrypt` returns `x`, and `ec_pve_t::verify` with the matching
commitment `x·G` succeeds. -/
theorem claim_C1 (q ek : Nat) (hq : 0 < q) (label : Buf) (x : Nat) (hx : x < q)
    (ent : Nat → Buf) :
    decryptS q ek ek label (encryptS q ek label x ent) false = Except.ok x ∧
    verifyS q (encryptS q ek label x ent) ek (smulG q x) label = Except.ok () := by
  have hxq : x % q = x := Nat.mod_eq_of_lt hx
  constructor
  · rw [decryptS_encryptS q ek hq label x ent, hxq]
  · have hQ : smulG q x = (encryptS q ek label x ent).Q := by
      rw [encryptS_Q]; rfl
    rw [hQ]
    exact verifyS_encryptS q ek hq label x ent

/-- Witness for C1 at a concrete curve order, key, label and scalar. -/
theorem claim_C1_witness :
    decryptS 11 3 3 [7] (encryptS 11 3 [7] 5 entW) false = Except.ok 5 ∧
    verifyS 11 (encryptS 11 3 [7] 5 entW) 3 (smulG 11 5) [7] = Except.ok () :=
  claim_C1 11 3 (by norm_num) [7] 5 (by norm_num) entW

/-- C2. Batch PVE round trip: for every batch size `n ≥ 1` (so in
particular `n = 1, 4, 16, 20`), every vector of `n` scalars, every label
and every honest key pair, `ec_pve_batch_t::decrypt` applied to the
instance produced by `ec_pve_batch_t::encrypt` returns the original `n`
scalars, and `ec_pve_batch_t::verify` with the matching commitment vector
succeeds. -/
theorem claim_C2 (q ek : Nat) (hq : 0 < q) (label : Buf) (xs : List Nat)
    (hn : 1 ≤ xs.length) (hxs : ∀ a ∈ xs, a < q) (ent : Nat → Buf) :
    decryptB q ek ek label (encryptB q ek label xs ent) false = Except.ok xs ∧
    verifyB q (encryptB q ek label xs ent) ek (xs.map (smulG q)) label = Except.ok () := by
  have hred : xsRed q xs = xs := by
    rw [xsRed]
    calc xs.map (· % q) = xs.map id :=
          List.map_congr_left fun a ha => Nat.mod_eq_of_lt (hxs a ha)
    _ = xs := List.map_id xs
  constructor
  · rw [decryptB_encryptB q ek hq label xs ent, hred]
  · have hQ : xs.map (smulG q) = (encryptB q ek label xs ent).Q := by
      rw [encryptB_Q, qsOf, hred]
    rw [hQ]
    exact verifyB_encryptB q ek hq label xs ent

/-- Witness for C2 at the batch sizes the spec lists: n = 1, 4, 16, 20. -/
theorem claim_C2_witness :
    (decryptB 11 3 3 [9] (encryptB 11 3 [9] [5] entW) false = Except.ok [5] ∧
      verifyB 11 (encryptB 11 3 [9] [5] entW) 3 ([5].map (smulG 11)) [9] = Except.ok ()) ∧
    (decryptB 11 3 3 [9] (encryptB 11 3 [9] [1, 2, 3, 4] entW) false =
        Except.ok [1, 2, 3, 4] ∧
      verifyB 11 (encryptB 11 3 [9] [1, 2, 3, 4] entW) 3
        ([1, 2, 3, 4].map (smulG 11)) [9] = Except.ok ()) ∧
    (decryptB 11 3 3 [9]
        (encryptB 11 3 [9] [0, 1, 2, 3, 4, 5, 6, 7, 8, 9, 10, 0, 1, 2, 3, 4] entW) false =
        Except.ok [0, 1, 2, 3, 4, 5, 6, 7, 8, 9, 10, 0, 1, 2, 3, 4] ∧
      verifyB 11 (encryptB 11 3 [9] [0, 1, 2, 3, 4, 5, 6, 7, 8, 9, 10, 0, 1, 2, 3, 4] entW) 3
        ([0, 1, 2, 3, 4, 5, 6, 7, 8, 9, 10, 0, 1, 2, 3, 4].map (smulG 11)) [9] =
        Except.ok ()) ∧
    (decryptB 11 3 3 [9]
        (encryptB 11 3 [9] [0, 1, 2, 3, 4, 5, 6, 7, 8, 9, 10, 0, 1, 2, 3, 4, 5, 6, 7, 8] entW)
        false = Except.ok [0, 1, 2, 3, 4, 5, 6, 7, 8, 9, 10, 0, 1, 2, 3, 4, 5, 6, 7, 8] ∧
      verifyB 11
        (encryptB 11 3 [9] [0, 1, 2, 3, 4, 5, 6, 7, 8, 9, 10, 0, 1, 2, 3, 4, 5, 6, 7, 8] entW)
        3 ([0, 1, 2, 3, 4, 5, 6, 7, 8, 9, 10, 0, 1, 2, 3, 4, 5, 6, 7, 8].map (smulG 11)) [9] =
        Except.ok ()) :=
  ⟨claim_C2 11 3 (by norm_num) [9] [5] (by norm_num) (by decide) entW,
   claim_C2 11 3 (by norm_num) [9] [1, 2, 3, 4] (by norm_num) (by decide) entW,
   claim_C2 11 3 (by norm_num) [9] [0, 1, 2, 3, 4, 5, 6, 7, 8, 9, 10, 0, 1, 2, 3, 4]
     (by norm_num) (by decide) entW,
   claim_C2 11 3 (by norm_num) [9] [0, 1, 2, 3, 4, 5, 6, 7, 8, 9, 10, 0, 1, 2, 3, 4, 5, 6, 7, 8]
     (by norm_num) (by decide) entW⟩

/-- C10. Modular reduction at the interface: `encrypt` (single and batch)
reduces every input scalar mod the curve order before committing, so the
stored commitment is `(x mod q)·G` and adding a multiple of `q` to an
input changes nothing (same instance, hence same decrypted value); and
whenever `decrypt` succeeds — on any instance, honest or not — the
returned scalar is the fully reduced representative: it lies in `[0, q)`
and its commitment equals the stored commitment. -/
theorem claim_C10 (q ek dk ek2 : Nat) (hq : 0 < q) (label : Buf) (x : Nat)
    (xsIn : List Nat) (ent : Nat → Buf) (inst : SingleInst) (binst : BatchInst)
    (sv : Bool) :
    (encryptS q ek label x ent).Q = smulG q (x % q) ∧
    encryptS q ek label (x + q) ent = encryptS q ek label x ent ∧
    (∀ v, decryptS q dk ek2 label inst sv = Except.ok v →
      v < q ∧ smulG q v = inst.Q) ∧
    (encryptB q ek label xsIn ent).Q = (xsRed q xsIn).map (smulG q) ∧
    encryptB q ek label (xsIn.map (fun a => a + q)) ent = encryptB q ek label xsIn ent ∧
    (∀ vs, decryptB q dk ek2 label binst sv = Except.ok vs →
      (∀ v ∈ vs, v < q) ∧ vs.map (smulG q) = binst.Q) := by
  refine ⟨?_, ?_, ?_, ?_, ?_, ?_⟩
  · rw [encryptS_Q, smulG_self_mod]
  · simp only [encryptS, Nat.add_mod_right]
  · intro v h
    have hloop := decryptS_ok_elim q dk ek2 label inst sv v h
    rcases (decryptLoopS_ok_iff q dk _ inst _ v).1 hloop with ⟨l1, i, l2, -, -, buf, -, hres⟩
    exact restoreS_ok_shape q hq inst i buf v hres
  · rw [encryptB_Q, qsOf]
  · have hcomp : ((fun a => a % q) ∘ fun a => a + q) = (fun a => a % q) :=
      funext fun a => Nat.add_mod_right a q
    simp only [encryptB, List.map_map, List.length_map, hcomp]
  · intro vs h
    rcases decryptB_ok_elim q dk ek2 label binst sv vs h with ⟨i, -, buf, -, hres⟩
    exact restoreB_ok_shape q hq binst i buf vs hres

/-- Witness for C10 at a concrete curve order and inputs. -/
theorem claim_C10_witness :
    (encryptS 11 3 [2] 14 entW).Q = smulG 11 (14 % 11) ∧
    encryptS 11 3 [2] (14 + 11) entW = encryptS 11 3 [2] 14 entW ∧
    (∀ v, decryptS 11 4 5 [2] (encryptS 11 3 [2] 14 entW) true = Except.ok v →
      v < 11 ∧ smulG 11 v = (encryptS 11 3 [2] 14 entW).Q) ∧
    (encryptB 11 3 [2] [14, 25] entW).Q = (xsRed 11 [14, 25]).map (smulG 11) ∧
    encryptB 11 3 [2] ([14, 25].map (fun a => a + 11)) entW =
      encryptB 11 3 [2] [14, 25] entW ∧
    (∀ vs, decryptB 11 4 5 [2] (encryptB 11 3 [2] [14, 25] entW) true = Except.ok vs →
      (∀ v ∈ vs, v < 11) ∧ vs.map (smulG 11) = (encryptB 11 3 [2] [14, 25] entW).Q) :=
  claim_C10 11 3 4 5 (by norm_num) [2] 14 [14, 25] entW (encryptS 11 3 [2] 14 entW)
    (encryptB 11 3 [2] [14, 25] entW) true

/-- C7. Key binding: decrypting an honest instance with a private key that
does not correspond to the encryption key fails with an error (the first
row's AEAD opening already fails and the call aborts); and in general —
for every instance, honest or adversarial, and any keys — a successful
decrypt never returns a value whose commitment differs from the stored
commitment, because every per-row candidate is checked against it before
being accepted (single: `x·G = Q`; batch: element-wise). -/
theorem claim_C7 (q : Nat) (hq : 0 < q) :
    (∀ ek dk label x ent, dk ≠ ek →
      decryptS q dk ek label (encryptS q ek label x ent) false =
        Except.error Err.decryptFailed) ∧
    (∀ dk ek label inst sv v, decryptS q dk ek label inst sv = Except.ok v →
      smulG q v = inst.Q) ∧
    (∀ dk ek label binst sv vs, decryptB q dk ek label binst sv = Except.ok vs →
      vs.map (smulG q) = binst.Q) := by
  refine ⟨?_, ?_, ?_⟩
  · intro ek dk label x ent hne
    have h0 : (0 : Nat) < kappa := by decide
    rw [decryptS, if_neg (by simp : ¬ (false = true)),
      verifyS_encryptS q ek hq label x ent]
    have hrange : List.range kappa = 0 :: List.map Nat.succ (List.range 127) := by
      rw [show kappa = 127 + 1 from rfl, List.range_succ_eq_map]
    rw [hrange, decryptLoopS]
    have hcond : ∀ plain rho, basePkeDecrypt dk
        (pveLabelWithPoint label (encPointH (encryptS q ek label x ent).Q))
        (basePkeEncrypt ek (pveLabelWithPoint label (encPointH (smulG q (x % q))))
          plain rho) = none := by
      intro plain rho
      simp only [basePkeDecrypt, basePkeEncrypt]
      rw [if_neg]
      rintro ⟨hcon, -⟩
      exact hne hcon.symm
    have hopen : basePkeDecrypt dk
        (pveLabelWithPoint label (encPointH (encryptS q ek label x ent).Q))
        ((encryptS q ek label x ent).c.getD 0 default) = none := by
      rw [encryptS_c_getD q ek label x ent 0 h0]
      cases hb : (encryptS q ek label x ent).b.getD 0 false with
      | false =>
        simp only [Bool.false_eq_true, if_false, encRowS]
        exact hcond _ _
      | true =>
        simp only [eq_self_iff_true, if_true, encRowS]
        exact hcond _ _
    rw [hopen]
  · intro dk ek label inst sv v h
    have hloop := decryptS_ok_elim q dk ek label inst sv v h
    rcases (decryptLoopS_ok_iff q dk _ inst _ v).1 hloop with ⟨l1, i, l2, -, -, buf, -, hres⟩
    exact (restoreS_ok_shape q hq inst i buf v hres).2
  · intro dk ek label binst sv vs h
    rcases decryptB_ok_elim q dk ek label binst sv vs h with ⟨i, -, buf, -, hres⟩
    exact (restoreB_ok_shape q hq binst i buf vs hres).2

/-- Witness for C7 at a concrete curve order. -/
theorem claim_C7_witness :
    (∀ ek dk label x ent, dk ≠ ek →
      decryptS 11 dk ek label (encryptS 11 ek label x ent) false =
        Except.error Err.decryptFailed) ∧
    (∀ dk ek label inst sv v, decryptS 11 dk ek label inst sv = Except.ok v →
      smulG 11 v = inst.Q) ∧
    (∀ dk ek label binst sv vs, decryptB 11 dk ek label binst sv = Except.ok vs →
      vs.map (smulG 11) = binst.Q) :=
  claim_C7 11 (by norm_num)

/-- C3. Verify accepts exactly as specified: `ec_pve_t::verify` rejects an
off-curve point (`badPoint`), a point differing from the stored commitment
(`qMismatch`), and a label differing from the stored label
(`labelMismatch`), in that order; otherwise it recomputes the challenge
from the recomputed row data and succeeds if and only if the recomputed
challenge equals the stored one (`proofInvalid` otherwise). The batch
verify is characterized the same way (its recomputation step additionally
checks the stored seed widths, which the recomputed-challenge success
condition `recomputeBB … = ok b` carries). -/
theorem claim_C3 (q : Nat) (inst : SingleInst) (ek : Nat) (Qin : Point) (label : Buf)
    (binst : BatchInst) (ekb : Nat) (Qb : List Point) (lb : Buf) :
    (verifyS q inst ek Qin label = Except.ok () ↔
      curveCheckB Qin = true ∧ Qin = inst.Q ∧ label = inst.L ∧
      recomputeBS q inst ek Qin label = inst.b) ∧
    (curveCheckB Qin = false → verifyS q inst ek Qin label = Except.error Err.badPoint) ∧
    (curveCheckB Qin = true → Qin ≠ inst.Q →
      verifyS q inst ek Qin label = Except.error Err.qMismatch) ∧
    (curveCheckB Qin = true → Qin = inst.Q → label ≠ inst.L →
      verifyS q inst ek Qin label = Except.error Err.labelMismatch) ∧
    (curveCheckB Qin = true → Qin = inst.Q → label = inst.L →
      recomputeBS q inst ek Qin label ≠ inst.b →
      verifyS q inst ek Qin label = Except.error Err.proofInvalid) ∧
    (verifyB q binst ekb Qb lb = Except.ok () ↔
      Qb.length = binst.n ∧ Qb.all curveCheckB = true ∧ Qb = binst.Q ∧ lb = binst.L ∧
      recomputeBB q binst ekb Qb lb = Except.ok binst.b) := by
  refine ⟨?_, ?_, ?_, ?_, ?_, ?_⟩
  · constructor
    · intro h
      rw [verifyS] at h
      by_cases h1 : ¬ curveCheckB Qin
      · rw [if_pos h1] at h; cases h
      · rw [if_neg h1] at h
        by_cases h2 : Qin ≠ inst.Q
        · rw [if_pos h2] at h; cases h
        · rw [if_neg h2] at h
          by_cases h3 : label ≠ inst.L
          · rw [if_pos h3] at h; cases h
          · rw [if_neg h3] at h
            by_cases h4 : recomputeBS q inst ek Qin label = inst.b
            · exact ⟨not_not.1 h1, not_not.1 h2, not_not.1 h3, h4⟩
            · rw [if_neg h4] at h; cases h
    · rintro ⟨h1, h2, h3, h4⟩
      rw [verifyS, if_neg (by simp [h1]), if_neg (by simp [h2]), if_neg (by simp [h3]),
        if_pos h4]
  · intro h1
    rw [verifyS, if_pos (by simp [h1])]
  · intro h1 h2
    rw [verifyS, if_neg (by simp [h1]), if_pos h2]
  · intro h1 h2 h3
    rw [verifyS, if_neg (by simp [h1]), if_neg (by simp [h2]), if_pos h3]
  · intro h1 h2 h3 h4
    rw [verifyS, if_neg (by simp [h1]), if_neg (by simp [h2]), if_neg (by simp [h3]),
      if_neg h4]
  · constructor
    · intro h
      rw [verifyB] at h
      by_cases h1 : Qb.length ≠ binst.n
      · rw [if_pos h1] at h; cases h
      · rw [if_neg h1] at h
        by_cases h2 : ¬ Qb.all curveCheckB
        · rw [if_pos h2] at h; cases h
        · rw [if_neg h2] at h
          by_cases h3 : Qb ≠ binst.Q
          · rw [if_pos h3] at h; cases h
          · rw [if_neg h3] at h
            by_cases h4 : lb ≠ binst.L
            · rw [if_pos h4] at h; cases h
            · rw [if_neg h4] at h
              cases hrec : recomputeRowsB q binst ekb Qb lb with
              | error e => rw [hrec] at h; cases h
              | ok recs =>
                rw [hrec] at h
                simp only [] at h
                by_cases hh : hashBits (challengeInputB Qb lb (recs.map (·.1))
                    (recs.map (·.2.1)) (recs.map (·.2.2.1)) (recs.map (·.2.2.2))) = binst.b
                · refine ⟨not_not.1 h1, not_not.1 h2, not_not.1 h3, not_not.1 h4, ?_⟩
                  rw [recomputeBB, hrec]
                  simp only [Except.map]
                  exact congrArg Except.ok hh
                · rw [if_neg hh] at h
                  cases h
    · rintro ⟨h1, h2, h3, h4, h5⟩
      rw [recomputeBB] at h5
      cases hrec : recomputeRowsB q binst ekb Qb lb with
      | error e => rw [hrec] at h5; cases h5
      | ok recs =>
        rw [hrec] at h5
        simp only [Except.map] at h5
        injection h5 with hh
        rw [verifyB, if_neg (by omega), if_neg (by simp [h2]), if_neg (by simp [h3]),
          if_neg (by simp [h4]), hrec]
        simp only []
        rw [if_pos hh]

set_option maxRecDepth 100000 in
set_option maxHeartbeats 4000000 in
/-- C9, counterexample to the claim as stated: in the batch instance for
scalar vector `[5]`, row 1's challenge bit is clear, so the retained
randomness seed of that row is the 32-byte concatenation of the two
16-byte seeds `r01 || r02` — not 16 bytes. -/
theorem claim_C9_counterexample :
    ((encryptB 11 3 [2] [5] entW).rows.getD 1 default).r.length = 32 := by rfl

/-- C9 as amended: in a single-value instance every row's retained seed is
exactly 16 bytes (a `buf128_t`), and the kept partial scalar is zeroed on
rows whose challenge bit is clear; in a batch instance a row's retained
seed is 16 bytes when its challenge bit is set (the seed `r1`) and 32
bytes when it is clear (the two concatenated seeds `r01 || r02`), with the
kept scalar blob emptied on rows whose challenge bit is clear. -/
theorem claim_C9_amended (q ek : Nat) (label : Buf) (x : Nat) (xsIn : List Nat)
    (ent : Nat → Buf) :
    (∀ i ∈ List.range kappa, ((encryptS q ek label x ent).r.getD i []).length = 16) ∧
    (∀ i ∈ List.range kappa, (encryptS q ek label x ent).b.getD i false = false →
      (encryptS q ek label x ent).xRows.getD i 0 = 0) ∧
    (∀ i ∈ List.range kappa,
      ((encryptB q ek label xsIn ent).rows.getD i default).r.length =
        if (encryptB q ek label xsIn ent).b.getD i false then 16 else 32) ∧
    (∀ i ∈ List.range kappa, (encryptB q ek label xsIn ent).b.getD i false = false →
      ((encryptB q ek label xsIn ent).rows.getD i default).xBin = []) := by
  refine ⟨?_, ?_, ?_, ?_⟩
  · intro i hi
    rw [encryptS_r_getD q ek label x ent i (List.mem_range.1 hi)]
    split
    · exact to16_length _
    · exact to16_length _
  · intro i hi hb
    rw [encryptS_xRows_getD q ek label x ent i (List.mem_range.1 hi), hb]
    simp
  · intro i hi
    rw [encryptB_rows_getD q ek label xsIn ent i (List.mem_range.1 hi)]
    cases hb : (encryptB q ek label xsIn ent).b.getD i false with
    | false =>
      simp only [Bool.false_eq_true, if_false]
      rw [List.length_append]
      have h1 : (rowBi q ek label xsIn ent i).r01.length = 16 := to16_length _
      have h2 : (rowBi q ek label xsIn ent i).r02.length = 16 := to16_length _
      omega
    | true =>
      simp only [eq_self_iff_true, if_true]
      exact to16_length _
  · intro i hi hb
    rw [encryptB_rows_getD q ek label xsIn ent i (List.mem_range.1 hi), hb]
    simp

/-- C8. Serialization round trip: for every wellformed instance value —
single-value, batch, and the hybrid-ciphertext component type —
deserializing the serialization yields a value equal to the original (and
the decoders consume exactly the serialized bytes, leaving any trailing
bytes untouched). -/
theorem claim_C8 (inst : SingleInst) (binst : BatchInst) (kct : KemAeadCt)
    (h1 : wfS inst) (h2 : wfB binst) (h3 : kct.iv.length = ivSize) :
    (∀ rest, deserS (serS inst ++ rest) = some (inst, rest)) ∧
    (∀ s rest, serB binst = some s → deserB binst.n (s ++ rest) = some (binst, rest)) ∧
    (∀ rest, deserKemCt (serKemCt kct ++ rest) = some (kct, rest)) :=
  ⟨fun rest => deserS_serS inst h1 rest,
   fun s rest hser => deserB_serB binst h2 s hser rest,
   fun rest => deserKemCt_ser kct h3 rest⟩

set_option maxRecDepth 40000 in
/-- Witness for C8 at small concrete wellformed values. -/
theorem claim_C8_witness :
    (∀ rest, deserS (serS sampleInstS ++ rest) = some (sampleInstS, rest)) ∧
    (∀ s rest, serB sampleInstB = some s →
      deserB sampleInstB.n (s ++ rest) = some (sampleInstB, rest)) ∧
    (∀ rest, deserKemCt (serKemCt sampleKemCt ++ rest) = some (sampleKemCt, rest)) :=
  claim_C8 sampleInstS sampleInstB sampleKemCt (by decide) (by decide) (by decide)

/-- C6. Label binding: for an instance produced with label `l0` and any
`l1 ≠ l0`, verify with `l1` fails, and decrypt with `l1` fails in both
modes — with the verify pass via its label check, and with `skip_verify`
set because every row ciphertext is bound (as AEAD associated data) to the
inner label derived from the caller-supplied label and the commitment, so
the very first row fails to open (single); the batch decrypt has its own
explicit label check that fires even when verification is skipped. -/
theorem claim_C6 (q ek : Nat) (hq : 0 < q) (l0 l1 : Buf) (hne : l1 ≠ l0) (x : Nat)
    (xsIn : List Nat) (ent : Nat → Buf) :
    verifyS q (encryptS q ek l0 x ent) ek (encryptS q ek l0 x ent).Q l1 =
      Except.error Err.labelMismatch ∧
    decryptS q ek ek l1 (encryptS q ek l0 x ent) false =
      Except.error Err.labelMismatch ∧
    decryptS q ek ek l1 (encryptS q ek l0 x ent) true =
      Except.error Err.decryptFailed ∧
    verifyB q (encryptB q ek l0 xsIn ent) ek (encryptB q ek l0 xsIn ent).Q l1 =
      Except.error Err.labelMismatch ∧
    decryptB q ek ek l1 (encryptB q ek l0 xsIn ent) false =
      Except.error Err.labelMismatch ∧
    decryptB q ek ek l1 (encryptB q ek l0 xsIn ent) true =
      Except.error Err.labelMismatch := by
  have hverS : verifyS q (encryptS q ek l0 x ent) ek (encryptS q ek l0 x ent).Q l1 =
      Except.error Err.labelMismatch := by
    rw [verifyS]
    rw [if_neg (by rw [encryptS_Q]; simp [curveCheckB]), if_neg (by simp)]
    rw [if_pos (by rw [encryptS_L]; exact hne)]
  have hlenB : (encryptB q ek l0 xsIn ent).Q.length = (encryptB q ek l0 xsIn ent).n := by
    rw [encryptB_Q, encryptB_n, qsOf, List.length_map, xsRed_length]
  have hallB : (encryptB q ek l0 xsIn ent).Q.all curveCheckB = true := by
    rw [encryptB_Q, qsOf, List.all_eq_true]
    intro P hP
    rcases List.mem_map.1 hP with ⟨a, -, rfl⟩
    rfl
  have hverB : verifyB q (encryptB q ek l0 xsIn ent) ek (encryptB q ek l0 xsIn ent).Q l1 =
      Except.error Err.labelMismatch := by
    rw [verifyB, if_neg (by rw [hlenB]; exact fun hcon => hcon rfl),
      if_neg (by rw [hallB]; simp), if_neg (by simp)]
    rw [if_pos (by rw [encryptB_L]; exact hne)]
  refine ⟨hverS, ?_, ?_, hverB, ?_, ?_⟩
  · rw [decryptS, if_neg (by simp : ¬ (false = true)), hverS]
  · have h0 : (0 : Nat) < kappa := by decide
    have hcond : ∀ plain rho, basePkeDecrypt ek
        (pveLabelWithPoint l1 (encPointH (encryptS q ek l0 x ent).Q))
        (basePkeEncrypt ek (pveLabelWithPoint l0 (encPointH (smulG q (x % q))))
          plain rho) = none := by
      intro plain rho
      simp only [basePkeDecrypt, basePkeEncrypt]
      rw [if_neg]
      rintro ⟨-, hlab⟩
      rw [encryptS_Q, smulG_self_mod] at hlab
      exact hne (pveLabelWithPoint_label_inj l0 l1 _ hlab).symm
    have hopen : basePkeDecrypt ek
        (pveLabelWithPoint l1 (encPointH (encryptS q ek l0 x ent).Q))
        ((encryptS q ek l0 x ent).c.getD 0 default) = none := by
      rw [encryptS_c_getD q ek l0 x ent 0 h0]
      cases hb : (encryptS q ek l0 x ent).b.getD 0 false with
      | false =>
        simp only [Bool.false_eq_true, if_false, encRowS]
        exact hcond _ _
      | true =>
        simp only [eq_self_iff_true, if_true, encRowS]
        exact hcond _ _
    have hrange : List.range kappa = 0 :: List.map Nat.succ (List.range 127) := by
      rw [show kappa = 127 + 1 from rfl, List.range_succ_eq_map]
    rw [decryptS_skip_eq_loop, hrange, decryptLoopS, hopen]
  · rw [decryptB, if_neg (by simp : ¬ (false = true)), hverB]
  · rw [decryptB]
    rw [if_pos (rfl : (true = true))]
    rw [if_pos (by rw [encryptB_L]; exact hne)]

/-- Witness for C6 at concrete distinct labels. -/
theorem claim_C6_witness :
    verifyS 11 (encryptS 11 3 [1] 5 entW) 3 (encryptS 11 3 [1] 5 entW).Q [2] =
      Except.error Err.labelMismatch ∧
    decryptS 11 3 3 [2] (encryptS 11 3 [1] 5 entW) false =
      Except.error Err.labelMismatch ∧
    decryptS 11 3 3 [2] (encryptS 11 3 [1] 5 entW) true =
      Except.error Err.decryptFailed ∧
    verifyB 11 (encryptB 11 3 [1] [5, 6] entW) 3 (encryptB 11 3 [1] [5, 6] entW).Q [2] =
      Except.error Err.labelMismatch ∧
    decryptB 11 3 3 [2] (encryptB 11 3 [1] [5, 6] entW) false =
      Except.error Err.labelMismatch ∧
    decryptB 11 3 3 [2] (encryptB 11 3 [1] [5, 6] entW) true =
      Except.error Err.labelMismatch :=
  claim_C6 11 3 (by norm_num) [1] [2] (by decide) 5 [5, 6] entW

set_option maxRecDepth 100000 in
set_option maxHeartbeats 4000000 in
/-- C4, counterexample to the claim as stated: in a single-value instance
whose row-0 ciphertext has been replaced (bound to a different label), the
opening of row 0 fails and `decrypt` (with verification skipped) aborts at
once with the base-decryption error — it does not advance to row 1, even
though row 1 opens and reconstructs the committed scalar 5, so under the
claim the call would have had to succeed (and could fail only with
`ReconstructionError`). -/
theorem claim_C4_counterexample :
    decryptS 11 3 3 [1]
      { encryptS 11 3 [1] 5 entW with
        c := (encryptS 11 3 [1] 5 entW).c.set 0 (basePkeEncrypt 3 [9, 9] [0] [0]) } true
      = Except.error Err.decryptFailed ∧
    ((basePkeDecrypt 3 (pveLabelWithPoint [1] (encPointH (encryptS 11 3 [1] 5 entW).Q))
        ((encryptS 11 3 [1] 5 entW).c.getD 1 default)).bind
      (fun buf => restoreS 11
        { encryptS 11 3 [1] 5 entW with
          c := (encryptS 11 3 [1] 5 entW).c.set 0 (basePkeEncrypt 3 [9, 9] [0] [0]) } 1 buf))
      = some 5 :=
  ⟨by rfl, by decide⟩

/-- C4 as amended: per-row retry applies to reconstruction failures only.
`decrypt` (single or batch; verification skipped) tries at most the
`kappa` rows in order; a row that opens but fails to reconstruct a value
matching the commitment only advances to the next row; the call fails with
`ReconstructionError` exactly when every row opens and none reconstructs;
and a failure to open a row's retained ciphertext aborts the call at once
with the base-decryption error (after a prefix of rows that opened and
failed to reconstruct) instead of advancing. -/
theorem claim_C4_amended (q dk ek : Nat) (label : Buf) (inst : SingleInst)
    (binst : BatchInst) (inner : Buf) :
    (decryptS q dk ek label inst true = Except.error Err.reconstructFailed ↔
      ∀ i ∈ List.range kappa, ∃ buf,
        basePkeDecrypt dk (pveLabelWithPoint label (encPointH inst.Q))
          (inst.c.getD i default) = some buf ∧
        restoreS q inst i buf = none) ∧
    (∀ v, decryptS q dk ek label inst true = Except.ok v ↔
      ∃ l1 i l2, List.range kappa = l1 ++ i :: l2 ∧
        (∀ j ∈ l1, ∃ buf,
          basePkeDecrypt dk (pveLabelWithPoint label (encPointH inst.Q))
            (inst.c.getD j default) = some buf ∧
          restoreS q inst j buf = none) ∧
        ∃ buf, basePkeDecrypt dk (pveLabelWithPoint label (encPointH inst.Q))
            (inst.c.getD i default) = some buf ∧
          restoreS q inst i buf = some v) ∧
    (decryptS q dk ek label inst true = Except.error Err.decryptFailed ↔
      ∃ l1 i l2, List.range kappa = l1 ++ i :: l2 ∧
        (∀ j ∈ l1, ∃ buf,
          basePkeDecrypt dk (pveLabelWithPoint label (encPointH inst.Q))
            (inst.c.getD j default) = some buf ∧
          restoreS q inst j buf = none) ∧
        basePkeDecrypt dk (pveLabelWithPoint label (encPointH inst.Q))
          (inst.c.getD i default) = none) ∧
    (decryptLoopB q dk inner binst (List.range kappa) =
        Except.error Err.reconstructFailed ↔
      ∀ i ∈ List.range kappa, ∃ buf,
        basePkeDecrypt dk inner (binst.rows.getD i default).c = some buf ∧
        ∃ e, restoreB q binst i buf = Except.error e) ∧
    (decryptLoopB q dk inner binst (List.range kappa) =
        Except.error Err.decryptFailed ↔
      ∃ l1 i l2, List.range kappa = l1 ++ i :: l2 ∧
        (∀ j ∈ l1, ∃ buf,
          basePkeDecrypt dk inner (binst.rows.getD j default).c = some buf ∧
          ∃ e, restoreB q binst j buf = Except.error e) ∧
        basePkeDecrypt dk inner (binst.rows.getD i default).c = none) := by
  refine ⟨?_, ?_, ?_, ?_, ?_⟩
  · rw [decryptS_skip_eq_loop]
    exact decryptLoopS_reconstructFailed_iff q dk _ inst (List.range kappa)
  · intro v
    rw [decryptS_skip_eq_loop]
    exact decryptLoopS_ok_iff q dk _ inst (List.range kappa) v
  · rw [decryptS_skip_eq_loop]
    exact decryptLoopS_decryptFailed_iff q dk _ inst (List.range kappa)
  · exact decryptLoopB_reconstructFailed_iff q dk inner binst (List.range kappa)
  · exact decryptLoopB_decryptFailed_iff q dk inner binst (List.range kappa)

/-- C5. Base-primitive determinism: with identical encryption key, label,
plaintext and 32-byte randomness seed `rho`, two runs of the base PKE
encrypt operation (`pve_base_pke_impl_t::encrypt`, which seeds a DRBG with
`rho` and seals) produce byte-identical serialized ciphertexts whatever
the ambient OS entropy does — the KEM encapsulation (RSA-OAEP shared
secret and OAEP seed, or the ECDH ephemeral scalar) and the AEAD nonce are
all drawn from the `rho`-seeded DRBG. -/
theorem claim_C5 (ek q u : Nat) (label plain rho : Buf) (e1 e2 : Ent) :
    pveBasePkeEncRsa ek label plain rho e1 = pveBasePkeEncRsa ek label plain rho e2 ∧
    pveBasePkeEncEcdh q u label plain rho e1 = pveBasePkeEncEcdh q u label plain rho e2 :=
  ⟨rfl, rfl⟩

end PVE

